import Mathlib

/-!
Shallow embedding of the texture deduplication store of `hytale2html`
(source file `texture-store.ts`, constants from `constants.ts`, file-system
helpers from `utils.ts`), together with proofs of the specification claims.

Modelling conventions, stated once here and referenced below:

* Machine numbers: all byte values, dimensions and counters are `Nat`.
  JavaScript `Math.round(x)` on the non-negative rationals that occur here
  (`v * a / 255` and `v / 17` with `v, a ≤ 255`) is `⌊x + 1/2⌋`; these values
  are never exactly half-integral (the denominators 255 and 17 are odd), and
  binary64 evaluation is exact to well below the distance to the nearest
  half-integer, so the integer formulas below agree with the JS source.
* `sha256Hex` is a collision-resistant digest (the spec demands this); it is
  idealised as an injective function by letting the digest BE the hashed
  content.  `ExactHash` carries the content of `"{w}x{h}\0" ++ pixel bytes`;
  `Fingerprint` carries the quantised 16×16 grid that the source hashes.
  The lexicographic JS string order on the fixed-width hex digests is
  idealised as the lexicographic order `keyLtB` on the digest contents: any
  total order plays the same role in the tie-break logic.
* Encoded PNG buffers are idealised as `Buffer`: the decoded image (or
  `none` for a malformed buffer, where `PNG.sync.read` throws) plus a `tag`
  distinguishing different encodings of the same pixels.
* The file system is the listing of the store's persistence directory:
  a list of `DirEntry` (name, is-file flag, content).  The name of a
  persisted texture, `"<prefix><64-hex-digest>@2x.png"`, is `FileName.conv
  key`; every name not matching the store's naming convention is
  `FileName.other s`.  `readdir`/`readFile`/`exists`/`writeFileSafe`/`rm`
  become pure functions on this listing.  A throwing fs call or decode makes
  the surrounding operation return `none` / `.error`.
* The promise-chain mutex (`synchronized`) serialises registrations on the
  JS event loop; the pure model presents `register` directly as one atomic
  state transition and does not model the event loop itself.
-/

/-! ## Constants (constants.ts) -/

/-- `DEDUPE_SIMILARITY_THRESHOLD = 0.999`.  Kept as an exact rational; for
every pixel count below `10^15` (far beyond any decodable PNG) the binary64
evaluation of `totalPixels * (1 - 0.999)` has the same floor as the exact
rational value, so the rational model is faithful. -/
def DEDUPE_SIMILARITY_THRESHOLD : ℚ := 999 / 1000

/-- `DEDUPE_MAX_MISMATCH_PIXELS = 64`. -/
def DEDUPE_MAX_MISMATCH_PIXELS : Nat := 64

/-- `DEDUPE_CHANNEL_TOLERANCE = 4` (0–255, premultiplied RGBA). -/
def DEDUPE_CHANNEL_TOLERANCE : Nat := 4

/-- `DEDUPE_ALPHA_IGNORE_BELOW = 4`. -/
def DEDUPE_ALPHA_IGNORE_BELOW : Nat := 4

/-- `DEDUPE_FINGERPRINT_SIZE = 16`. -/
def DEDUPE_FINGERPRINT_SIZE : Nat := 16

/-! ## Pixel data and the codec (texture-store.ts lines 18–52) -/

/-- A decoded PNG: width, height and the flat row-major RGBA byte list
(`png.data`). -/
structure DecodedPng where
  width : Nat
  height : Nat
  data : List Nat
deriving DecidableEq, Repr

/-- An encoded bitmap buffer.  `decoded?` is the image that `PNG.sync.read`
yields (`none` when it throws on malformed input); `tag` distinguishes
different encoded byte streams for the same image, so byte-identical pixel
content can come from two distinct buffers. -/
structure Buffer where
  tag : Nat
  decoded? : Option DecodedPng
deriving DecidableEq, Repr

/-- `decodePng` (line 18): decode or throw. -/
def decodePng (buffer : Buffer) : Option DecodedPng := buffer.decoded?

/-- The exact content digest: `sha256Hex("{w}x{h}\0", data)`, idealised as
the hashed content itself (injective by collision-resistance). -/
structure ExactHash where
  width : Nat
  height : Nat
  data : List Nat
deriving DecidableEq, Repr

/-- `hashPngPixels` (line 23). -/
def hashPngPixels (decoded : DecodedPng) : ExactHash :=
  ⟨decoded.width, decoded.height, decoded.data⟩

/-- JS `Math.round(v * a / 255)` for bytes `v, a` — premultiplication of a
colour channel by alpha.  `⌊v*a/255 + 1/2⌋ = (2*v*a + 255) / 510`. -/
def premul255 (v a : Nat) : Nat := (2 * v * a + 255) / 510

/-- The quantiser of `computeFingerprint` (line 32):
`Math.max(0, Math.min(15, Math.round(v / 17)))`; `Math.round(v / 17)` is
`(2*v + 17) / 34`. -/
def quant (v : Nat) : Nat := min 15 ((2 * v + 17) / 34)

/-- The fingerprint digest, idealised as the quantised grid itself. -/
abbrev Fingerprint := List Nat

/-- `computeFingerprint` (lines 27–52): sample a 16×16 grid (nearest source
pixel to each cell centre, clamped), premultiply RGB by alpha, quantise each
channel to 16 levels, and hash (idealised: return) the grid in row-major
order.  `Math.floor(((y + 0.5) * height) / size)` is exact in binary64 and
equals `((2*y + 1) * height) / (2 * size)`.  The clamp `min (dim - 1)` for
`dim = 0` differs from JS (where `dim - 1 = -1` indexes nothing); PNG
dimensions are always ≥ 1, where the model agrees. -/
def computeFingerprint (decoded : DecodedPng) : Fingerprint :=
  let size := DEDUPE_FINGERPRINT_SIZE
  (List.range size).flatMap fun y =>
    let srcY := min (decoded.height - 1) (((2 * y + 1) * decoded.height) / (2 * size))
    (List.range size).flatMap fun x =>
      let srcX := min (decoded.width - 1) (((2 * x + 1) * decoded.width) / (2 * size))
      let i := (srcY * decoded.width + srcX) * 4
      let a := decoded.data.getD (i + 3) 0
      let r := premul255 (decoded.data.getD i 0) a
      let g := premul255 (decoded.data.getD (i + 1) 0) a
      let b := premul255 (decoded.data.getD (i + 2) 0) a
      [quant r, quant g, quant b, quant a]

/-! ## Similarity comparator (texture-store.ts lines 54–90) -/

/-- The per-pixel test of the comparator loop body at byte offset `i`:
`false` when both alphas are at most the ignore threshold, otherwise whether
`max(|ΔR|,|ΔG|,|ΔB|,|ΔA|)` on premultiplied channels exceeds the channel
tolerance.  (`continue` for the alpha-ignored case and for `delta ≤ tol`
coincide in the source: neither increments the mismatch counter.) -/
def pixelMismatchB (a b : List Nat) (i : Nat) : Bool :=
  let aA := a.getD (i + 3) 0
  let bA := b.getD (i + 3) 0
  if aA ≤ DEDUPE_ALPHA_IGNORE_BELOW ∧ bA ≤ DEDUPE_ALPHA_IGNORE_BELOW then false
  else
    let aR := premul255 (a.getD i 0) aA
    let aG := premul255 (a.getD (i + 1) 0) aA
    let aB := premul255 (a.getD (i + 2) 0) aA
    let bR := premul255 (b.getD i 0) bA
    let bG := premul255 (b.getD (i + 1) 0) bA
    let bB := premul255 (b.getD (i + 2) 0) bA
    let dR := max aR bR - min aR bR
    let dG := max aG bG - min aG bG
    let dB := max aB bB - min aB bB
    let dA := max aA bA - min aA bA
    let delta := max (max (max dR dG) dB) dA
    decide (delta > DEDUPE_CHANNEL_TOLERANCE)

/-- The comparator loop (`for (let i = 0; i < a.length; i += 4)`), with the
early exit `if (mismatches > allowed) return mismatches`.  `fuel` bounds the
number of remaining iterations (the caller passes `a.length`, at least the
`⌈length/4⌉` iterations the loop performs). -/
def countLoop (a b : List Nat) (allowed : Nat) : Nat → Nat → Nat → Nat
  | 0, _, mismatches => mismatches
  | fuel + 1, i, mismatches =>
    if i < a.length then
      if pixelMismatchB a b i then
        if mismatches + 1 > allowed then mismatches + 1
        else countLoop a b allowed fuel (i + 4) (mismatches + 1)
      else countLoop a b allowed fuel (i + 4) mismatches
    else mismatches

/-- `countMismatchedPixels` (lines 54–90): `allowed + 1` on length mismatch,
otherwise the early-exiting mismatch count. -/
def countMismatchedPixels (a b : List Nat) (allowed : Nat) : Nat :=
  if a.length ≠ b.length then allowed + 1
  else countLoop a b allowed a.length 0 0

/-- Number of pixel slots the comparator loop visits: `⌈length/4⌉`. -/
def numPixelSlots (a : List Nat) : Nat := (a.length + 3) / 4

/-- The exact (no early exit) number of mismatching pixels between two
equally long buffers — the claim-level notion of "pixels altered beyond the
per-channel tolerance on premultiplied channels, with at least one alpha
above the ignore threshold". -/
def trueMismatchCount (a b : List Nat) : Nat :=
  ((List.range (numPixelSlots a)).filter fun p => pixelMismatchB a b (4 * p)).length

/-! ## Keys, buckets, paths (texture-store.ts lines 92–98, 181–183, 209–215) -/

/-- A store key: the string `SHARED_TEXTURE_PREFIX ++ hex(digest)`, idealised
by its digest (the prefix is a fixed constant, so the map is injective). -/
structure StoreKey where
  digest : ExactHash
deriving DecidableEq, Repr

/-- Boolean lexicographic order on byte lists — the idealisation of JS `<`
on the hex strings of two digests. -/
def listLtB : List Nat → List Nat → Bool
  | [], [] => false
  | [], _ :: _ => true
  | _ :: _, [] => false
  | a :: as, b :: bs => a < b || (a = b && listLtB as bs)

/-- The idealised total order on digests (width, then height, then data). -/
def hashLtB (a b : ExactHash) : Bool :=
  a.width < b.width ||
    (a.width = b.width &&
      (a.height < b.height || (a.height = b.height && listLtB a.data b.data)))

/-- JS string `<` on store keys, idealised (see module docstring). -/
def keyLtB (a b : StoreKey) : Bool := hashLtB a.digest b.digest

/-- `bucketKey` (line 209): the composite `"${width}x${height}:${fingerprint}"`. -/
structure BucketKey where
  width : Nat
  height : Nat
  fingerprint : Fingerprint
deriving DecidableEq, Repr

/-- A file name in the persistence directory: `conv key` stands for exactly
the names matching the rehydration regex `^(<prefix>[0-9a-f]{64})@2x\.png$`
(line 106), `other s` for every other name. -/
inductive FileName
  | conv (key : StoreKey)
  | other (s : String)
deriving DecidableEq, Repr

/-- An entry of the persistence directory listing (readdir with file types):
its name, whether it is a regular file, and — for files — the raw bytes. -/
structure DirEntry where
  name : FileName
  isFile : Bool
  content : Buffer
deriving DecidableEq, Repr

/-- The listing of the persistence directory (`sharedDir`). -/
abbrev Dir := List DirEntry

/-- An absolute file path `path.join(dir, "<key>@2x.png")` (or any other
name in some directory). -/
structure FilePath' where
  dir : String
  name : FileName
deriving DecidableEq, Repr

/-- The externally addressable reference path
`${namespace}/${SHARED_TEXTURES_DIR}/${key}.png` (line 213), idealised by
its variable components (the middle segment and suffix are constants). -/
structure TexturePath where
  ns : String
  key : StoreKey
deriving DecidableEq, Repr

/-- Constructor parameters of `SharedTextureStore` (line 98): the
persistence directory and the namespace (`ns`; `namespace` is reserved in
Lean). -/
structure StoreParams where
  sharedDir : String
  ns : String
deriving DecidableEq, Repr

/-- `texturePathForKey` (line 213). -/
def texturePathForKey (p : StoreParams) (key : StoreKey) : TexturePath :=
  ⟨p.ns, key⟩

/-- `SharedTextureInfo` (types.ts): one `StoreEntry`. -/
structure SharedTextureInfo where
  key : StoreKey
  width : Nat
  height : Nat
  fingerprint : Fingerprint
  filePath : FilePath'
  texturePath : TexturePath
deriving DecidableEq, Repr

/-! ## The JS `Map` model -/

/-- `Map.get`: the value bound to `k`, if any. -/
def mapGet [DecidableEq α] : List (α × β) → α → Option β
  | [], _ => none
  | (k', v) :: rest, k => if k' = k then some v else mapGet rest k

/-- `Map.set`: replace the binding of `k` in place, or append it. -/
def mapSet [DecidableEq α] : List (α × β) → α → β → List (α × β)
  | [], k, v => [(k, v)]
  | (k', v') :: rest, k, v =>
    if k' = k then (k, v) :: rest else (k', v') :: mapSet rest k v

/-! ## The file-system primitives used by the store (utils.ts) -/

/-- `fsp.readFile` followed by nothing: the bytes at a path, `none` when the
path is missing, is a directory, or lies outside the modelled `sharedDir`
(a read that throws aborts the surrounding operation). -/
def readFile (p : StoreParams) (dir : Dir) (fp : FilePath') : Option Buffer :=
  if fp.dir = p.sharedDir then
    match dir.find? fun e => e.name = fp.name && e.isFile with
    | some e => some e.content
    | none => none
  else none

/-- `exists` (utils.ts line 7): `fsp.access` succeeds for any existing
directory entry, file or not. -/
def fileExists (dir : Dir) (fp : FilePath') : Bool :=
  dir.any fun e => e.name = fp.name

/-- `writeFileSafe` (utils.ts line 220): (over)write the file at a name in
the shared directory. -/
def writeFile (dir : Dir) (fp : FilePath') (content : Buffer) : Dir :=
  if dir.any fun e => e.name = fp.name then
    dir.map fun e =>
      if e.name = fp.name then { e with isFile := true, content := content } else e
  else dir ++ [⟨fp.name, true, content⟩]

/-! ## The in-memory index (texture-store.ts lines 92–96) -/

/-- The three maps of `SharedTextureStore`.  The promise-chain `mutex`
field is not part of the pure state (see the module docstring). -/
structure Store where
  exactHashToKey : List (ExactHash × StoreKey)
  bucketToKeys : List (BucketKey × List StoreKey)
  keyToInfo : List (StoreKey × SharedTextureInfo)
deriving DecidableEq, Repr

/-- The store as constructed (all maps empty). -/
def emptyStore : Store := ⟨[], [], []⟩

/-- Insert a key into a list sorted by `keyLtB`, keeping it sorted. -/
def insertKey (k : StoreKey) : List StoreKey → List StoreKey
  | [] => [k]
  | x :: xs => if keyLtB k x then k :: x :: xs else x :: insertKey k xs

/-- `list.sort()` on an array of keys: JS's default comparator is string
comparison, idealised by `keyLtB` (insertion sort; JS sort is stable and
the order is total, so any correct sort has the same result). -/
def jsSortKeys : List StoreKey → List StoreKey
  | [] => []
  | x :: xs => insertKey x (jsSortKeys xs)

/-! ## Registration (texture-store.ts lines 135–207) -/

/-- The allowed mismatch budget (lines 149–151):
`min(Math.floor(totalPixels * (1 - DEDUPE_SIMILARITY_THRESHOLD)),
DEDUPE_MAX_MISMATCH_PIXELS)`.  Written in the executable exact form
`totalPixels / 1000`; `allowedBudgetFormula` below is the formula as the
source spells it (exact rational arithmetic), and the two are proved equal.
The binary64 evaluation of the source agrees with the exact rational value
for every `totalPixels < 10^15` (the accumulated error `totalPixels *
(round64(1 - round64(0.999)) - 1/1000) ≈ totalPixels * 8.9e-19` plus one
multiplication rounding stays below the `≥ 1/1000` distance of
`totalPixels/1000` to the next integer), which covers every decodable PNG. -/
def allowedBudget (width height : Nat) : Nat :=
  let totalPixels := width * height
  min (totalPixels / 1000) DEDUPE_MAX_MISMATCH_PIXELS

/-- The budget exactly as line 150–151 writes it, in exact rational
arithmetic: `min(floor(totalPixels * (1 - similarityThreshold)),
maxMismatchCap)`. -/
def allowedBudgetFormula (width height : Nat) : Nat :=
  let totalPixels := width * height
  min (Nat.floor ((totalPixels : ℚ) * (1 - DEDUPE_SIMILARITY_THRESHOLD)))
    DEDUPE_MAX_MISMATCH_PIXELS

/-- The result of `register`: `{ texturePath, filePath }`. -/
structure RegisterResult where
  texturePath : TexturePath
  filePath : FilePath'
deriving DecidableEq, Repr

/-- The improvement test of the candidate loop (line 166):
`mismatches < bestMismatches || (mismatches === bestMismatches && key <
bestKey)`.  `best = none` models `bestMismatches = Infinity` (where the
first disjunct holds, so the source's `bestKey ?? "~"` fallback is
unreachable: `bestKey` is null exactly when `bestMismatches` is infinite). -/
def improves (mismatches : Nat) (key : StoreKey) : Option (Nat × StoreKey) → Bool
  | none => true
  | some (bestMismatches, bestKey) =>
    mismatches < bestMismatches ||
      (mismatches = bestMismatches && keyLtB key bestKey)

/-- One iteration of the candidate loop (lines 156–171): skip candidates
with no info or wrong dimensions, read and decode the candidate's persisted
bytes (failure aborts the whole registration), then keep the candidate when
it is within budget and improves on the current best. -/
def candidateStep (p : StoreParams) (st : Store) (dir : Dir) (decoded : DecodedPng)
    (allowed : Nat) (best : Option (Nat × StoreKey)) (key : StoreKey) :
    Option (Option (Nat × StoreKey)) :=
  match mapGet st.keyToInfo key with
  | none => some best
  | some info =>
    if info.width ≠ decoded.width ∨ info.height ≠ decoded.height then some best
    else
      match readFile p dir info.filePath with
      | none => none
      | some candidateBuffer =>
        match decodePng candidateBuffer with
        | none => none
        | some candidateDecoded =>
          if candidateDecoded.width ≠ decoded.width ∨
              candidateDecoded.height ≠ decoded.height then some best
          else
            let mismatches :=
              countMismatchedPixels decoded.data candidateDecoded.data allowed
            if mismatches ≤ allowed && improves mismatches key best then
              some (some (mismatches, key))
            else some best

/-- The candidate loop over the bucket's key list. -/
def scanCandidates (p : StoreParams) (st : Store) (dir : Dir) (decoded : DecodedPng)
    (allowed : Nat) :
    List StoreKey → Option (Nat × StoreKey) → Option (Option (Nat × StoreKey))
  | [], best => some best
  | key :: rest, best =>
    match candidateStep p st dir decoded allowed best key with
    | none => none
    | some best' => scanCandidates p st dir decoded allowed rest best'

/-- The persist-as-new tail of `register` (lines 181–205): derive the key
from the exact digest, write the encoded bytes unless a file is already
present, create the `StoreEntry`, and insert it into all three maps
(re-sorting the bucket list). -/
def registerNew (p : StoreParams) (st : Store) (dir : Dir) (buffer : Buffer)
    (decoded : DecodedPng) (exactHash : ExactHash) (fingerprint : Fingerprint)
    (bucketKey : BucketKey) : RegisterResult × Store × Dir :=
  let key : StoreKey := ⟨exactHash⟩
  let filePath : FilePath' := ⟨p.sharedDir, FileName.conv key⟩
  let texturePath := texturePathForKey p key
  let dir' := if fileExists dir filePath then dir else writeFile dir filePath buffer
  let info : SharedTextureInfo :=
    ⟨key, decoded.width, decoded.height, fingerprint, filePath, texturePath⟩
  let list := (mapGet st.bucketToKeys bucketKey).getD []
  (⟨texturePath, filePath⟩,
    { keyToInfo := mapSet st.keyToInfo key info,
      exactHashToKey := mapSet st.exactHashToKey exactHash key,
      bucketToKeys := mapSet st.bucketToKeys bucketKey (jsSortKeys (list ++ [key])) },
    dir')

/-- `register` (lines 135–207): decode, try the exact-digest map, otherwise
scan the fingerprint bucket for the best near-duplicate within budget;
collapse onto it (recording the new digest as an alias) or persist as new.
`none` models a thrown `DecodeError` or a failing candidate read.  (The
body runs inside `synchronized`; the model is the state transition of one
such serialised execution.) -/
def register (p : StoreParams) (st : Store) (dir : Dir) (buffer : Buffer) :
    Option (RegisterResult × Store × Dir) :=
  match decodePng buffer with
  | none => none
  | some decoded =>
    let exactHash := hashPngPixels decoded
    match
      (match mapGet st.exactHashToKey exactHash with
       | some existingKey => mapGet st.keyToInfo existingKey
       | none => none) with
    | some info => some (⟨info.texturePath, info.filePath⟩, st, dir)
    | none =>
      let fingerprint := computeFingerprint decoded
      let bucketKey : BucketKey := ⟨decoded.width, decoded.height, fingerprint⟩
      let candidates := (mapGet st.bucketToKeys bucketKey).getD []
      let allowed := allowedBudget decoded.width decoded.height
      match scanCandidates p st dir decoded allowed candidates none with
      | none => none
      | some best =>
        match best with
        | some (_, bestKey) =>
          match mapGet st.keyToInfo bestKey with
          | some info =>
            some (⟨info.texturePath, info.filePath⟩,
              { st with
                exactHashToKey := mapSet st.exactHashToKey exactHash bestKey },
              dir)
          | none =>
            some (registerNew p st dir buffer decoded exactHash fingerprint bucketKey)
        | none =>
          some (registerNew p st dir buffer decoded exactHash fingerprint bucketKey)

/-! ## Rehydration (texture-store.ts lines 100–133) -/

/-- The state of the persistence directory before `init`. -/
inductive DirState
  | absent
  | unreadable
  | readable (entries : Dir)
deriving DecidableEq, Repr

/-- Errors of `init`: the spec's `StoreInitError` (directory unreadable —
the propagated `readdir` rejection) and a propagated decode failure of a
persisted file. -/
inductive InitError
  | storeInitError
  | decodeError
deriving DecidableEq, Repr

/-- The `for (const entry of entries)` body of `init` (lines 104–132): skip
non-files and names not matching the convention; decode each matching file,
recompute its digest and fingerprint, and insert the entry into all maps. -/
def initLoop (p : StoreParams) : Dir → Store → Except InitError Store
  | [], st => .ok st
  | e :: rest, st =>
    if !e.isFile then initLoop p rest st
    else
      match e.name with
      | .other _ => initLoop p rest st
      | .conv keyFromName =>
        match decodePng e.content with
        | none => .error .decodeError
        | some decoded =>
          let exactHash := hashPngPixels decoded
          let fingerprint := computeFingerprint decoded
          let bucketKey : BucketKey := ⟨decoded.width, decoded.height, fingerprint⟩
          let info : SharedTextureInfo :=
            ⟨keyFromName, decoded.width, decoded.height, fingerprint,
              ⟨p.sharedDir, FileName.conv keyFromName⟩,
              texturePathForKey p keyFromName⟩
          let list := (mapGet st.bucketToKeys bucketKey).getD []
          initLoop p rest
            { keyToInfo := mapSet st.keyToInfo keyFromName info,
              exactHashToKey := mapSet st.exactHashToKey exactHash keyFromName,
              bucketToKeys :=
                mapSet st.bucketToKeys bucketKey (jsSortKeys (list ++ [keyFromName])) }

/-- `init` (lines 100–133): `mkdir -p` creates the directory when absent,
`readdir` fails on an unreadable directory (the spec's `StoreInitError`),
then every listed entry is processed.  Returns the rebuilt store together
with the (unchanged) directory listing. -/
def init (p : StoreParams) (d : DirState) : Except InitError (Store × Dir) :=
  match d with
  | .absent => (initLoop p [] emptyStore).map fun st => (st, [])
  | .unreadable => .error .storeInitError
  | .readable entries => (initLoop p entries emptyStore).map fun st => (st, entries)

/-! ## Garbage collection (texture-store.ts lines 227–265) -/

/-- A fragment of a generated `.ui` document, as seen by the prune regex:
either an occurrence of a reference path
`<ns>/<SHARED_TEXTURES_DIR>/<prefix><64-hex>.png` or any other text. -/
inductive DocToken
  | ref (ns : String) (key : StoreKey)
  | other (s : String)
deriving DecidableEq, Repr

/-- A generated document: its reference-path occurrences in order. -/
abbrev UiDoc := List DocToken

/-- The `usedKeys` collection (lines 236–248): every key occurring in some
document as a reference path of this namespace. -/
def referencedKeys (ns : String) (docs : List UiDoc) : List StoreKey :=
  docs.flatMap fun doc =>
    doc.filterMap fun t =>
      match t with
      | .ref ns' key => if ns' = ns then some key else none
      | .other _ => none

/-- `fsp.rm(path, { force: true })`: drop the entry with the given name. -/
def rmFile (dir : Dir) (name : FileName) : Dir :=
  dir.filter fun e => e.name ≠ name

/-- `pruneUnusedSharedTextures` (lines 227–265): collect the referenced keys
from all generated documents, then walk the persistence directory listing
and delete every convention-named file whose key is unreferenced.  (The
`exists(sharedDir)` early return and the log line do not affect the listing
semantics modelled here.) -/
def pruneUnusedSharedTextures (ns : String) (docs : List UiDoc) (dir : Dir) : Dir :=
  let usedKeys := referencedKeys ns docs
  dir.foldl
    (fun fs e =>
      if e.isFile then
        match e.name with
        | .conv key => if usedKeys.contains key then fs else rmFile fs e.name
        | .other _ => fs
      else fs)
    dir

/-! ## Proof-layer definitions

Derived notions used to state and prove the claims; they are specification
artifacts, not translations of further source code. -/

/-- Classification of one candidate of the scan loop, as a function of the
key alone (the loop state does not influence it): the candidate is skipped,
aborts the registration (failing read/decode), or qualifies with a mismatch
count within budget. -/
inductive COutcome
  | err
  | skip
  | qual (mismatches : Nat)
deriving DecidableEq, Repr

/-- The outcome of `candidateStep` for a key, independent of the running
best. -/
def candidateOutcome (p : StoreParams) (st : Store) (dir : Dir) (decoded : DecodedPng)
    (allowed : Nat) (key : StoreKey) : COutcome :=
  match mapGet st.keyToInfo key with
  | none => .skip
  | some info =>
    if info.width ≠ decoded.width ∨ info.height ≠ decoded.height then .skip
    else
      match readFile p dir info.filePath with
      | none => .err
      | some candidateBuffer =>
        match decodePng candidateBuffer with
        | none => .err
        | some candidateDecoded =>
          if candidateDecoded.width ≠ decoded.width ∨
              candidateDecoded.height ≠ decoded.height then .skip
          else
            let mismatches :=
              countMismatchedPixels decoded.data candidateDecoded.data allowed
            if mismatches ≤ allowed then .qual mismatches else .skip

/-- The fold step of the scan loop on qualifying candidates. -/
def pickBest (best : Option (Nat × StoreKey)) (q : Nat × StoreKey) :
    Option (Nat × StoreKey) :=
  if improves q.1 q.2 best then some q else best

/-- The qualifying candidates of a bucket, with their mismatch counts, in
scan order. -/
def qualPairs (p : StoreParams) (st : Store) (dir : Dir) (decoded : DecodedPng)
    (allowed : Nat) (cands : List StoreKey) : List (Nat × StoreKey) :=
  cands.filterMap fun k =>
    match candidateOutcome p st dir decoded allowed k with
    | .qual m => some (m, k)
    | _ => none

/-- Strict "better than" on (mismatch count, key) pairs: fewer mismatches,
or equally many with a lexicographically smaller key. -/
def pairLtB (q q' : Nat × StoreKey) : Bool := improves q.1 q.2 (some q')

/-- The key a fresh registration of pixel content `d` would allocate. -/
def freshKey (d : DecodedPng) : StoreKey := ⟨hashPngPixels d⟩

/-- The explicit result of registering a decodable buffer into an empty
store over an empty directory. -/
def freshResult (p : StoreParams) (d : DecodedPng) (b : Buffer) :
    RegisterResult × Store × Dir :=
  let key := freshKey d
  let filePath : FilePath' := ⟨p.sharedDir, FileName.conv key⟩
  let texturePath := texturePathForKey p key
  let info : SharedTextureInfo :=
    ⟨key, d.width, d.height, computeFingerprint d, filePath, texturePath⟩
  (⟨texturePath, filePath⟩,
    { keyToInfo := [(key, info)],
      exactHashToKey := [(hashPngPixels d, key)],
      bucketToKeys := [(⟨d.width, d.height, computeFingerprint d⟩, [key])] },
    [⟨FileName.conv key, true, b⟩])

/-- The index-consistency invariant of claim C9: every bucket list is
sorted by key, every key reachable from the exact-digest map or from a
bucket list resolves to a `StoreEntry`, and the key-to-entry map binds each
key at most once (so "exactly one `StoreEntry`" for reachable keys). -/
def StoreInvariant (st : Store) : Prop :=
  (∀ bk l, mapGet st.bucketToKeys bk = some l →
    l.Pairwise fun a b => keyLtB b a = false) ∧
  (∀ h k, mapGet st.exactHashToKey h = some k → (mapGet st.keyToInfo k).isSome) ∧
  (∀ bk l k, mapGet st.bucketToKeys bk = some l → k ∈ l →
    (mapGet st.keyToInfo k).isSome) ∧
  (st.keyToInfo.map Prod.fst).Nodup

/-- The convention-matching regular files of a directory listing, by key,
in listing order. -/
def convFileKeys (entries : Dir) : List StoreKey :=
  entries.filterMap fun e =>
    if e.isFile then
      match e.name with
      | .conv k => some k
      | .other _ => none
    else none

/-- Shared parameters for the concrete witness scenarios. -/
def exampleParams : StoreParams := ⟨"res/Common/UI/Custom/ns/Shared", "ns"⟩

/-- The number of mismatching pixels among the loop iterations from slot `q`
on (an accounting device for the loop invariant of `countLoop`). -/
def restCount (a b : List Nat) (q : Nat) : Nat :=
  ((List.range' q (numPixelSlots a - q)).filter fun p => pixelMismatchB a b (4 * p)).length

/-! Concrete two-candidate scenario: two 1×1 images, equal fingerprints,
pixel difference beyond tolerance (so both stay persisted after
rehydration), and a probe within tolerance of both. -/

/-- First stored 1×1 image (red channel 8). -/
def tieImage1 : DecodedPng := ⟨1, 1, [8, 8, 8, 255]⟩

/-- Second stored 1×1 image (red channel 6); its key is lexicographically
smaller than `tieImage1`'s. -/
def tieImage2 : DecodedPng := ⟨1, 1, [6, 8, 8, 255]⟩

/-- Key of `tieImage1`. -/
def tieKey1 : StoreKey := ⟨hashPngPixels tieImage1⟩

/-- Key of `tieImage2`. -/
def tieKey2 : StoreKey := ⟨hashPngPixels tieImage2⟩

/-- Entry of `tieImage1`. -/
def tieInfo1 : SharedTextureInfo :=
  ⟨tieKey1, 1, 1, computeFingerprint tieImage1,
    ⟨exampleParams.sharedDir, FileName.conv tieKey1⟩,
    texturePathForKey exampleParams tieKey1⟩

/-- Entry of `tieImage2`. -/
def tieInfo2 : SharedTextureInfo :=
  ⟨tieKey2, 1, 1, computeFingerprint tieImage2,
    ⟨exampleParams.sharedDir, FileName.conv tieKey2⟩,
    texturePathForKey exampleParams tieKey2⟩

/-- The bucket both images share. -/
def tieBucket : BucketKey := ⟨1, 1, computeFingerprint tieImage1⟩

/-- A rehydrated store with both images in one bucket (sorted order). -/
def tieStore : Store :=
  { exactHashToKey := [(hashPngPixels tieImage1, tieKey1),
      (hashPngPixels tieImage2, tieKey2)],
    bucketToKeys := [(tieBucket, [tieKey2, tieKey1])],
    keyToInfo := [(tieKey1, tieInfo1), (tieKey2, tieInfo2)] }

/-- The same store with the bucket's candidate list in the opposite order. -/
def tieStoreRev : Store :=
  { tieStore with bucketToKeys := [(tieBucket, [tieKey1, tieKey2])] }

/-- The persisted files backing the two entries. -/
def tieDir : Dir :=
  [⟨FileName.conv tieKey1, true, ⟨0, some tieImage1⟩⟩,
   ⟨FileName.conv tieKey2, true, ⟨1, some tieImage2⟩⟩]

/-- A probe within tolerance of both stored images (red channel 7). -/
def tieProbe : Buffer := ⟨2, some ⟨1, 1, [7, 8, 8, 255]⟩⟩

/-! ## Lemmas about the `Map` model -/

@[simp]
theorem mapGet_nil [DecidableEq α] (k : α) : mapGet ([] : List (α × β)) k = none := rfl

@[simp]
theorem mapGet_cons [DecidableEq α] (k' : α) (v : β) (rest : List (α × β)) (k : α) :
    mapGet ((k', v) :: rest) k = if k' = k then some v else mapGet rest k := rfl

@[simp]
theorem mapGet_mapSet_self [DecidableEq α] (m : List (α × β)) (k : α) (v : β) :
    mapGet (mapSet m k v) k = some v := by
  induction m with
  | nil => simp [mapSet]
  | cons hd tl ih =>
    obtain ⟨k', v'⟩ := hd
    by_cases h : k' = k <;> simp [mapSet, h, ih]

theorem mapGet_mapSet_ne [DecidableEq α] (m : List (α × β)) (k k' : α) (v : β)
    (h : k' ≠ k) : mapGet (mapSet m k v) k' = mapGet m k' := by
  have h' : k ≠ k' := Ne.symm h
  induction m with
  | nil => simp [mapSet, h']
  | cons hd tl ih =>
    obtain ⟨k₀, v₀⟩ := hd
    by_cases h0 : k₀ = k
    · subst h0
      simp [mapSet, h']
    · simp only [mapSet, if_neg h0, mapGet_cons]
      by_cases h1 : k₀ = k' <;> simp [h1, ih]

theorem fst_mem_mapSet [DecidableEq α] (m : List (α × β)) (k : α) (v : β) (x : α) :
    x ∈ (mapSet m k v).map Prod.fst ↔ x = k ∨ x ∈ m.map Prod.fst := by
  induction m with
  | nil => simp [mapSet, eq_comm]
  | cons hd tl ih =>
    obtain ⟨k₀, v₀⟩ := hd
    by_cases h0 : k₀ = k
    · subst h0
      simp only [mapSet, if_true, eq_self_iff_true, List.map_cons, List.mem_cons]
      tauto
    · simp only [mapSet, if_neg h0, List.map_cons, List.mem_cons, ih]
      tauto

theorem nodup_fst_mapSet [DecidableEq α] (m : List (α × β)) (k : α) (v : β)
    (h : (m.map Prod.fst).Nodup) : ((mapSet m k v).map Prod.fst).Nodup := by
  induction m with
  | nil => simp [mapSet]
  | cons hd tl ih =>
    obtain ⟨k₀, v₀⟩ := hd
    simp only [List.map_cons, List.nodup_cons] at h
    by_cases h0 : k₀ = k
    · subst h0
      simpa [mapSet] using h
    · simp only [mapSet, if_neg h0, List.map_cons, List.nodup_cons]
      refine ⟨fun hmem => ?_, ih h.2⟩
      rw [fst_mem_mapSet] at hmem
      rcases hmem with rfl | hmem
      · exact h0 rfl
      · exact h.1 hmem

theorem mapGet_isSome_of_mem_fst [DecidableEq α] (m : List (α × β)) (x : α)
    (h : x ∈ m.map Prod.fst) : (mapGet m x).isSome := by
  induction m with
  | nil => simp at h
  | cons hd tl ih =>
    obtain ⟨k₀, v₀⟩ := hd
    by_cases h0 : k₀ = x
    · simp [h0]
    · simp only [List.map_cons, List.mem_cons] at h
      rcases h with rfl | h
      · exact absurd rfl h0
      · simpa [h0] using ih h

/-! ## Lemmas about the key order -/

theorem listLtB_irrefl : ∀ l : List Nat, listLtB l l = false
  | [] => rfl
  | x :: xs => by simp [listLtB, listLtB_irrefl xs]

theorem listLtB_trans : ∀ {a b c : List Nat},
    listLtB a b = true → listLtB b c = true → listLtB a c = true
  | [], [], _, h, _ => by simp [listLtB] at h
  | [], _ :: _, [], _, h => by simp [listLtB] at h
  | [], _ :: _, _ :: _, _, _ => rfl
  | _ :: _, [], _, h, _ => by simp [listLtB] at h
  | _ :: _, _ :: _, [], _, h => by simp [listLtB] at h
  | x :: xs, y :: ys, z :: zs, h1, h2 => by
    simp only [listLtB, Bool.or_eq_true, decide_eq_true_eq, Bool.and_eq_true] at h1 h2 ⊢
    rcases h1 with h1 | ⟨rfl, h1⟩ <;> rcases h2 with h2 | ⟨rfl, h2⟩
    · exact Or.inl (Nat.lt_trans h1 h2)
    · exact Or.inl h1
    · exact Or.inl h2
    · exact Or.inr ⟨rfl, listLtB_trans h1 h2⟩

theorem listLtB_asymm {a b : List Nat} (h : listLtB a b = true) :
    listLtB b a = false := by
  by_contra h'
  have hba : listLtB b a = true := by
    cases hc : listLtB b a
    · exact absurd hc h'
    · rfl
  have := listLtB_trans h hba
  rw [listLtB_irrefl] at this
  exact Bool.false_ne_true this

theorem listLtB_total : ∀ {a b : List Nat},
    a ≠ b → listLtB a b = true ∨ listLtB b a = true
  | [], [], h => absurd rfl h
  | [], _ :: _, _ => Or.inl rfl
  | _ :: _, [], _ => Or.inr rfl
  | x :: xs, y :: ys, h => by
    simp only [listLtB, Bool.or_eq_true, decide_eq_true_eq, Bool.and_eq_true]
    rcases Nat.lt_trichotomy x y with hxy | rfl | hxy
    · exact Or.inl (Or.inl hxy)
    · have hne : xs ≠ ys := fun h' => h (by rw [h'])
      rcases listLtB_total hne with h' | h'
      · exact Or.inl (Or.inr ⟨rfl, h'⟩)
      · exact Or.inr (Or.inr ⟨rfl, h'⟩)
    · exact Or.inr (Or.inl hxy)

theorem keyLtB_irrefl (k : StoreKey) : keyLtB k k = false := by
  obtain ⟨⟨w, h, d⟩⟩ := k
  simp [keyLtB, hashLtB, listLtB_irrefl]

theorem keyLtB_trans {a b c : StoreKey} (h1 : keyLtB a b = true)
    (h2 : keyLtB b c = true) : keyLtB a c = true := by
  obtain ⟨⟨wa, ha, da⟩⟩ := a
  obtain ⟨⟨wb, hb, db⟩⟩ := b
  obtain ⟨⟨wc, hc, dc⟩⟩ := c
  simp only [keyLtB, hashLtB, Bool.or_eq_true, decide_eq_true_eq,
    Bool.and_eq_true] at h1 h2 ⊢
  rcases h1 with h1 | ⟨rfl, h1 | ⟨rfl, h1⟩⟩ <;>
    rcases h2 with h2 | ⟨rfl, h2 | ⟨rfl, h2⟩⟩
  · exact Or.inl (by omega)
  · exact Or.inl h1
  · exact Or.inl h1
  · exact Or.inl h2
  · exact Or.inr ⟨rfl, Or.inl (by omega)⟩
  · exact Or.inr ⟨rfl, Or.inl h1⟩
  · exact Or.inl h2
  · exact Or.inr ⟨rfl, Or.inl h2⟩
  · exact Or.inr ⟨rfl, Or.inr ⟨rfl, listLtB_trans h1 h2⟩⟩

theorem keyLtB_total {a b : StoreKey} (h : a ≠ b) :
    keyLtB a b = true ∨ keyLtB b a = true := by
  obtain ⟨⟨wa, ha, da⟩⟩ := a
  obtain ⟨⟨wb, hb, db⟩⟩ := b
  simp only [keyLtB, hashLtB, Bool.or_eq_true, decide_eq_true_eq, Bool.and_eq_true]
  rcases Nat.lt_trichotomy wa wb with hw | rfl | hw
  · exact Or.inl (Or.inl hw)
  · rcases Nat.lt_trichotomy ha hb with hh | rfl | hh
    · exact Or.inl (Or.inr ⟨rfl, Or.inl hh⟩)
    · have hne : da ≠ db := by
        rintro rfl
        exact h rfl
      rcases listLtB_total hne with h' | h'
      · exact Or.inl (Or.inr ⟨rfl, Or.inr ⟨rfl, h'⟩⟩)
      · exact Or.inr (Or.inr ⟨rfl, Or.inr ⟨rfl, h'⟩⟩)
    · exact Or.inr (Or.inr ⟨rfl, Or.inl hh⟩)
  · exact Or.inr (Or.inl hw)

theorem keyLtB_asymm {a b : StoreKey} (h : keyLtB a b = true) : keyLtB b a = false := by
  by_contra h'
  have hba : keyLtB b a = true := by
    cases hc : keyLtB b a
    · exact absurd hc h'
    · rfl
  have := keyLtB_trans h hba
  rw [keyLtB_irrefl] at this
  exact Bool.false_ne_true this

/-! ## Lemmas about the sorted bucket lists -/

theorem mem_insertKey (k x : StoreKey) :
    ∀ l : List StoreKey, x ∈ insertKey k l ↔ x = k ∨ x ∈ l
  | [] => by simp [insertKey]
  | y :: ys => by
    by_cases h : keyLtB k y = true
    · simp only [insertKey, if_pos h, List.mem_cons]
    · simp only [insertKey, if_neg h, List.mem_cons, mem_insertKey k x ys]
      tauto

theorem pairwise_insertKey (k : StoreKey) {l : List StoreKey}
    (hl : l.Pairwise fun a b => keyLtB b a = false) :
    (insertKey k l).Pairwise fun a b => keyLtB b a = false := by
  induction l with
  | nil => simp [insertKey]
  | cons y ys ih =>
    rcases List.pairwise_cons.mp hl with ⟨hy, hys⟩
    by_cases h : keyLtB k y = true
    · simp only [insertKey, if_pos h]
      refine List.pairwise_cons.mpr ⟨?_, hl⟩
      intro z hz
      rcases List.mem_cons.mp hz with rfl | hz
      · exact keyLtB_asymm h
      · by_contra hzk
        have hzk' : keyLtB z k = true := by
          cases hc : keyLtB z k
          · exact absurd hc hzk
          · rfl
        have := keyLtB_trans hzk' h
        rw [hy z hz] at this
        exact Bool.false_ne_true this
    · have h' : keyLtB k y = false := by
        cases hc : keyLtB k y
        · rfl
        · exact absurd hc h
      simp only [insertKey, if_neg h]
      refine List.pairwise_cons.mpr ⟨?_, ih hys⟩
      intro z hz
      rcases (mem_insertKey k z ys).mp hz with rfl | hz
      · exact h'
      · exact hy z hz

theorem mem_jsSortKeys (x : StoreKey) :
    ∀ l : List StoreKey, x ∈ jsSortKeys l ↔ x ∈ l
  | [] => Iff.rfl
  | y :: ys => by
    simp only [jsSortKeys, mem_insertKey, List.mem_cons, mem_jsSortKeys x ys]

theorem pairwise_jsSortKeys :
    ∀ l : List StoreKey, (jsSortKeys l).Pairwise fun a b => keyLtB b a = false
  | [] => List.Pairwise.nil
  | y :: ys => pairwise_insertKey y (pairwise_jsSortKeys ys)

/-! ## Characterisation of the comparator -/

theorem pixelMismatchB_self (a : List Nat) (i : Nat) : pixelMismatchB a a i = false := by
  simp [pixelMismatchB]

theorem trueMismatchCount_self (a : List Nat) : trueMismatchCount a a = 0 := by
  simp [trueMismatchCount, pixelMismatchB_self]

theorem countLoop_eq (a b : List Nat) (allowed : Nat) :
    ∀ fuel q m, numPixelSlots a - q ≤ fuel → m ≤ allowed →
      countLoop a b allowed fuel (4 * q) m = min (m + restCount a b q) (allowed + 1) := by
  intro fuel
  induction fuel with
  | zero =>
    intro q m hfuel hm
    have hq : numPixelSlots a ≤ q := by omega
    have hrc : restCount a b q = 0 := by
      simp [restCount, Nat.sub_eq_zero_of_le hq]
    rw [countLoop, hrc]
    omega
  | succ fuel ih =>
    intro q m hfuel hm
    rw [countLoop]
    by_cases hlt : 4 * q < a.length
    · have hqslots : q < numPixelSlots a := by
        unfold numPixelSlots
        omega
      have hcons : List.range' q (numPixelSlots a - q) =
          q :: List.range' (q + 1) (numPixelSlots a - (q + 1)) := by
        rw [show numPixelSlots a - q = (numPixelSlots a - (q + 1)) + 1 by omega]
        rfl
      rw [if_pos hlt]
      by_cases hpm : pixelMismatchB a b (4 * q) = true
      · have hrc : restCount a b q = restCount a b (q + 1) + 1 := by
          simp [restCount, hcons, hpm]
        rw [hpm, if_pos rfl]
        by_cases hover : m + 1 > allowed
        · rw [if_pos hover]
          have : restCount a b q ≥ 1 := by omega
          omega
        · rw [if_neg hover]
          rw [show 4 * q + 4 = 4 * (q + 1) by ring]
          rw [ih (q + 1) (m + 1) (by omega) (by omega)]
          omega
      · have hpm' : pixelMismatchB a b (4 * q) = false := by
          cases hc : pixelMismatchB a b (4 * q)
          · rfl
          · exact absurd hc hpm
        have hrc : restCount a b q = restCount a b (q + 1) := by
          simp [restCount, hcons, hpm']
        rw [hpm', if_neg (by simp)]
        rw [show 4 * q + 4 = 4 * (q + 1) by ring]
        rw [ih (q + 1) m (by omega) hm]
        omega
    · have hq : numPixelSlots a ≤ q := by
        unfold numPixelSlots
        omega
      have hrc : restCount a b q = 0 := by
        simp [restCount, Nat.sub_eq_zero_of_le hq]
      rw [if_neg hlt, hrc]
      omega

/-- The comparator computes exactly `min(true mismatch count, allowed + 1)`
on equally long buffers: the early exit only truncates counts beyond the
budget. -/
theorem countMismatchedPixels_eq (a b : List Nat) (allowed : Nat)
    (h : a.length = b.length) :
    countMismatchedPixels a b allowed = min (trueMismatchCount a b) (allowed + 1) := by
  unfold countMismatchedPixels
  rw [if_neg (by omega)]
  have hslots : numPixelSlots a - 0 ≤ a.length := by
    unfold numPixelSlots
    omega
  have := countLoop_eq a b allowed a.length 0 0 hslots (Nat.zero_le _)
  simp only [Nat.mul_zero, Nat.zero_add] at this
  rw [this]
  congr 1
  simp [restCount, trueMismatchCount, List.range_eq_range']

/-! ## Lemmas about the candidate scan -/

theorem pairLtB_irrefl (q : Nat × StoreKey) : pairLtB q q = false := by
  obtain ⟨n, k⟩ := q
  simp [pairLtB, improves, keyLtB_irrefl]

theorem pairLtB_trans {q1 q2 q3 : Nat × StoreKey} (h1 : pairLtB q1 q2 = true)
    (h2 : pairLtB q2 q3 = true) : pairLtB q1 q3 = true := by
  obtain ⟨n1, k1⟩ := q1
  obtain ⟨n2, k2⟩ := q2
  obtain ⟨n3, k3⟩ := q3
  simp only [pairLtB, improves, Bool.or_eq_true, decide_eq_true_eq,
    Bool.and_eq_true] at h1 h2 ⊢
  rcases h1 with h1 | ⟨rfl, h1⟩ <;> rcases h2 with h2 | ⟨rfl, h2⟩
  · exact Or.inl (by omega)
  · exact Or.inl h1
  · exact Or.inl h2
  · exact Or.inr ⟨rfl, keyLtB_trans h1 h2⟩

theorem pairLtB_asymm {q1 q2 : Nat × StoreKey} (h : pairLtB q1 q2 = true) :
    pairLtB q2 q1 = false := by
  by_contra h'
  have h2 : pairLtB q2 q1 = true := by
    cases hc : pairLtB q2 q1
    · exact absurd hc h'
    · rfl
  have := pairLtB_trans h h2
  rw [pairLtB_irrefl] at this
  exact Bool.false_ne_true this

theorem pairLtB_total {q1 q2 : Nat × StoreKey} (h : q1 ≠ q2) :
    pairLtB q1 q2 = true ∨ pairLtB q2 q1 = true := by
  obtain ⟨n1, k1⟩ := q1
  obtain ⟨n2, k2⟩ := q2
  simp only [pairLtB, improves, Bool.or_eq_true, decide_eq_true_eq, Bool.and_eq_true]
  rcases Nat.lt_trichotomy n1 n2 with hn | rfl | hn
  · exact Or.inl (Or.inl hn)
  · have hk : k1 ≠ k2 := by
      rintro rfl
      exact h rfl
    rcases keyLtB_total hk with h' | h'
    · exact Or.inl (Or.inr ⟨rfl, h'⟩)
    · exact Or.inr (Or.inr ⟨rfl, h'⟩)
  · exact Or.inr (Or.inl hn)

theorem improves_eq_pairLtB (m : Nat) (k : StoreKey) (q : Nat × StoreKey) :
    improves m k (some q) = pairLtB (m, k) q := rfl

theorem candidateStep_eq (p : StoreParams) (st : Store) (dir : Dir)
    (decoded : DecodedPng) (allowed : Nat) (best : Option (Nat × StoreKey))
    (key : StoreKey) :
    candidateStep p st dir decoded allowed best key =
      match candidateOutcome p st dir decoded allowed key with
      | .err => none
      | .skip => some best
      | .qual m => some (pickBest best (m, key)) := by
  unfold candidateStep candidateOutcome pickBest
  cases hinfo : mapGet st.keyToInfo key with
  | none => rfl
  | some info =>
    by_cases hdim : info.width ≠ decoded.width ∨ info.height ≠ decoded.height
    · simp [hdim]
    · simp only [if_neg hdim]
      cases hread : readFile p dir info.filePath with
      | none => rfl
      | some cb =>
        cases hdec : decodePng cb with
        | none => simp [hdec]
        | some cd =>
          by_cases hdim2 : cd.width ≠ decoded.width ∨ cd.height ≠ decoded.height
          · simp [hdec, hdim2]
          · by_cases hle : countMismatchedPixels decoded.data cd.data allowed ≤ allowed
            · by_cases himp :
                improves (countMismatchedPixels decoded.data cd.data allowed) key best = true
              · simp [hdec, hdim2, hle, himp]
              · simp [hdec, hdim2, hle, himp]
            · simp [hdec, hdim2, hle]

theorem mem_qualPairs (p : StoreParams) (st : Store) (dir : Dir)
    (decoded : DecodedPng) (allowed : Nat) (cands : List StoreKey)
    (q : Nat × StoreKey) :
    q ∈ qualPairs p st dir decoded allowed cands ↔
      q.2 ∈ cands ∧ candidateOutcome p st dir decoded allowed q.2 = .qual q.1 := by
  obtain ⟨m, k⟩ := q
  simp only [qualPairs, List.mem_filterMap]
  constructor
  · rintro ⟨a, ha, hf⟩
    cases hout : candidateOutcome p st dir decoded allowed a with
    | err => rw [hout] at hf; exact absurd hf (by simp)
    | skip => rw [hout] at hf; exact absurd hf (by simp)
    | qual m' =>
      rw [hout] at hf
      simp only [Option.some.injEq, Prod.mk.injEq] at hf
      obtain ⟨rfl, rfl⟩ := hf
      exact ⟨ha, hout⟩
  · rintro ⟨hk, hout⟩
    exact ⟨k, hk, by rw [hout]⟩

theorem scanCandidates_err (p : StoreParams) (st : Store) (dir : Dir)
    (decoded : DecodedPng) (allowed : Nat) :
    ∀ (cands : List StoreKey) (best : Option (Nat × StoreKey)),
      (∃ k ∈ cands, candidateOutcome p st dir decoded allowed k = .err) →
      scanCandidates p st dir decoded allowed cands best = none := by
  intro cands
  induction cands with
  | nil => rintro best ⟨k, hk, _⟩; simp at hk
  | cons k0 rest ih =>
    rintro best ⟨k, hk, herr⟩
    rw [scanCandidates, candidateStep_eq]
    rcases List.mem_cons.mp hk with rfl | hk
    · rw [herr]
    · cases hout : candidateOutcome p st dir decoded allowed k0 with
      | err => rfl
      | skip => exact ih _ ⟨k, hk, herr⟩
      | qual m => exact ih _ ⟨k, hk, herr⟩

theorem scanCandidates_ok (p : StoreParams) (st : Store) (dir : Dir)
    (decoded : DecodedPng) (allowed : Nat) :
    ∀ (cands : List StoreKey) (best : Option (Nat × StoreKey)),
      (∀ k ∈ cands, candidateOutcome p st dir decoded allowed k ≠ .err) →
      scanCandidates p st dir decoded allowed cands best =
        some ((qualPairs p st dir decoded allowed cands).foldl pickBest best) := by
  intro cands
  induction cands with
  | nil => intro best _; rfl
  | cons k0 rest ih =>
    intro best hnoerr
    rw [scanCandidates, candidateStep_eq]
    cases hout : candidateOutcome p st dir decoded allowed k0 with
    | err => exact absurd hout (hnoerr k0 (List.mem_cons_self _ _))
    | skip =>
      dsimp only
      rw [ih best fun k hk => hnoerr k (List.mem_cons_of_mem _ hk)]
      simp [qualPairs, hout]
    | qual m =>
      dsimp only
      rw [ih (pickBest best (m, k0)) fun k hk => hnoerr k (List.mem_cons_of_mem _ hk)]
      simp [qualPairs, hout]

theorem foldl_pickBest_none :
    ∀ (l : List (Nat × StoreKey)) (best : Option (Nat × StoreKey)),
      l.foldl pickBest best = none → best = none ∧ l = [] := by
  intro l
  induction l with
  | nil => intro best h; exact ⟨h, rfl⟩
  | cons q0 rest ih =>
    intro best h
    rw [List.foldl_cons] at h
    obtain ⟨hbest', -⟩ := ih _ h
    unfold pickBest at hbest'
    by_cases himp : improves q0.1 q0.2 best = true
    · rw [if_pos himp] at hbest'; exact absurd hbest' (by simp)
    · rw [if_neg himp] at hbest'
      subst hbest'
      simp [improves] at himp

theorem foldl_pickBest_spec :
    ∀ (l : List (Nat × StoreKey)) (best : Option (Nat × StoreKey)) (r : Nat × StoreKey),
      l.foldl pickBest best = some r →
      (r ∈ l ∨ best = some r) ∧ (∀ q ∈ l, pairLtB q r = false) ∧
        (∀ b0, best = some b0 → (r = b0 ∨ pairLtB r b0 = true) ∧ pairLtB b0 r = false) := by
  intro l
  induction l with
  | nil =>
    intro best r h
    simp only [List.foldl_nil] at h
    subst h
    refine ⟨Or.inr rfl, by simp, ?_⟩
    rintro b0 hb0
    injection hb0 with hb0
    subst hb0
    exact ⟨Or.inl rfl, pairLtB_irrefl _⟩
  | cons q0 rest ih =>
    intro best r h
    rw [List.foldl_cons] at h
    obtain ⟨hmem, hmin, hbest⟩ := ih _ r h
    by_cases himp : improves q0.1 q0.2 best = true
    · have hbest' : pickBest best q0 = some q0 := by unfold pickBest; rw [if_pos himp]
      rw [hbest'] at hmem hbest
      obtain ⟨hrel, hasym⟩ := hbest q0 rfl
      constructor
      · rcases hmem with hmem | hq0
        · exact Or.inl (List.mem_cons_of_mem _ hmem)
        · injection hq0 with hq0
          exact Or.inl (hq0 ▸ List.mem_cons_self _ _)
      constructor
      · intro q hq
        rcases List.mem_cons.mp hq with rfl | hq
        · exact hasym
        · exact hmin q hq
      · intro b0 hb0
        subst hb0
        have himp' : pairLtB q0 b0 = true := himp
        rcases hrel with rfl | hrel
        · exact ⟨Or.inr himp', pairLtB_asymm himp'⟩
        · have : pairLtB r b0 = true := pairLtB_trans hrel himp'
          exact ⟨Or.inr this, pairLtB_asymm this⟩
    · have himpf : improves q0.1 q0.2 best = false := by
        cases hc : improves q0.1 q0.2 best
        · rfl
        · exact absurd hc himp
      have hbest' : pickBest best q0 = best := by unfold pickBest; rw [if_neg himp]
      rw [hbest'] at hmem hbest
      have hbsome : ∃ b, best = some b := by
        cases hb : best
        · rw [hb] at himpf; simp [improves] at himpf
        · exact ⟨_, rfl⟩
      obtain ⟨b, rfl⟩ := hbsome
      have hq0b : pairLtB q0 b = false := himpf
      obtain ⟨hrel, -⟩ := hbest b rfl
      constructor
      · rcases hmem with hmem | hmem
        · exact Or.inl (List.mem_cons_of_mem _ hmem)
        · exact Or.inr hmem
      constructor
      · intro q hq
        rcases List.mem_cons.mp hq with rfl | hq
        · by_contra hqr
          have hqr' : pairLtB q r = true := by
            cases hc : pairLtB q r
            · exact absurd hc hqr
            · rfl
          rcases hrel with rfl | hrel
          · rw [hqr'] at hq0b
            exact Bool.noConfusion hq0b
          · have := pairLtB_trans hqr' hrel
            rw [this] at hq0b
            exact Bool.noConfusion hq0b
        · exact hmin q hq
      · intro b0 hb0
        injection hb0 with hb0
        subst hb0
        exact hbest b rfl

theorem pickBest_min_unique {l : List (Nat × StoreKey)} {r r' : Nat × StoreKey}
    (hr : r ∈ l) (hr' : r' ∈ l)
    (hmin : ∀ q ∈ l, pairLtB q r = false) (hmin' : ∀ q ∈ l, pairLtB q r' = false) :
    r = r' := by
  by_contra hne
  rcases pairLtB_total hne with h | h
  · rw [hmin' r hr] at h
    exact Bool.noConfusion h
  · rw [hmin r' hr'] at h
    exact Bool.noConfusion h

theorem foldl_pickBest_perm {l l' : List (Nat × StoreKey)} (hp : l.Perm l') :
    l.foldl pickBest none = l'.foldl pickBest none := by
  cases hres : l.foldl pickBest none with
  | none =>
    obtain ⟨-, hl⟩ := foldl_pickBest_none l none hres
    subst hl
    have hl' : l' = [] := List.Perm.eq_nil hp.symm
    subst hl'
    rfl
  | some r =>
    obtain ⟨hmem, hmin, -⟩ := foldl_pickBest_spec l none r hres
    have hrl : r ∈ l := by
      rcases hmem with h | h
      · exact h
      · exact absurd h (by simp)
    cases hres' : l'.foldl pickBest none with
    | none =>
      obtain ⟨-, hl'⟩ := foldl_pickBest_none l' none hres'
      subst hl'
      have := List.Perm.eq_nil hp
      subst this
      simp at hrl
    | some r' =>
      obtain ⟨hmem', hmin', -⟩ := foldl_pickBest_spec l' none r' hres'
      have hrl' : r' ∈ l' := by
        rcases hmem' with h | h
        · exact h
        · exact absurd h (by simp)
      have hr'l : r' ∈ l := (List.Perm.mem_iff hp).mpr hrl'
      have hminl : ∀ q ∈ l, pairLtB q r' = false := fun q hq =>
        hmin' q ((List.Perm.mem_iff hp).mp hq)
      exact congrArg some (pickBest_min_unique hrl hr'l hmin hminl)

theorem scanCandidates_perm (p : StoreParams) (st : Store) (dir : Dir)
    (decoded : DecodedPng) (allowed : Nat) {cands cands' : List StoreKey}
    (hp : cands.Perm cands') :
    scanCandidates p st dir decoded allowed cands none =
      scanCandidates p st dir decoded allowed cands' none := by
  by_cases herr : ∃ k ∈ cands, candidateOutcome p st dir decoded allowed k = .err
  · obtain ⟨k, hk, hke⟩ := herr
    rw [scanCandidates_err p st dir decoded allowed cands none ⟨k, hk, hke⟩,
      scanCandidates_err p st dir decoded allowed cands' none
        ⟨k, (List.Perm.mem_iff hp).mp hk, hke⟩]
  · have hnoerr : ∀ k ∈ cands, candidateOutcome p st dir decoded allowed k ≠ .err :=
      fun k hk hke => herr ⟨k, hk, hke⟩
    have hnoerr' : ∀ k ∈ cands', candidateOutcome p st dir decoded allowed k ≠ .err :=
      fun k hk hke => herr ⟨k, (List.Perm.mem_iff hp).mpr hk, hke⟩
    rw [scanCandidates_ok p st dir decoded allowed cands none hnoerr,
      scanCandidates_ok p st dir decoded allowed cands' none hnoerr']
    exact congrArg some (foldl_pickBest_perm (List.Perm.filterMap _ hp))

/-! ## Lemmas about `register` -/

theorem register_empty_eq (p : StoreParams) (b : Buffer) (d : DecodedPng)
    (hd : decodePng b = some d) :
    register p emptyStore [] b = some (freshResult p d b) := by
  unfold register
  rw [hd]
  rfl

theorem register_exact_hit (p : StoreParams) (st : Store) (dir : Dir) (b : Buffer)
    (d : DecodedPng) (K : StoreKey) (info : SharedTextureInfo)
    (hd : decodePng b = some d)
    (he : mapGet st.exactHashToKey (hashPngPixels d) = some K)
    (hi : mapGet st.keyToInfo K = some info) :
    register p st dir b = some (⟨info.texturePath, info.filePath⟩, st, dir) := by
  unfold register
  rw [hd]
  dsimp only
  rw [he]
  dsimp only
  rw [hi]

/-- Inversion of a successful registration: afterwards the buffer's exact
digest resolves through the exact map to an entry whose paths are the
returned reference, no matter which of the three paths (exact hit, collapse,
persist-as-new) was taken. -/
theorem register_success_inv (p : StoreParams) (st : Store) (dir : Dir) (b : Buffer)
    (r : RegisterResult) (st' : Store) (dir' : Dir)
    (h : register p st dir b = some (r, st', dir')) :
    ∃ d K info, decodePng b = some d ∧
      mapGet st'.exactHashToKey (hashPngPixels d) = some K ∧
      mapGet st'.keyToInfo K = some info ∧
      r = ⟨info.texturePath, info.filePath⟩ := by
  cases hd : decodePng b with
  | none =>
    unfold register at h
    rw [hd] at h
    exact absurd h (by simp)
  | some d =>
    unfold register at h
    rw [hd] at h
    dsimp only at h
    cases he : mapGet st.exactHashToKey (hashPngPixels d) with
    | some ek =>
      rw [he] at h
      dsimp only at h
      cases hi : mapGet st.keyToInfo ek with
      | some info =>
        rw [hi] at h
        dsimp only at h
        simp only [Option.some.injEq, Prod.mk.injEq] at h
        obtain ⟨hr, hst, hdir⟩ := h
        subst hr
        subst hst
        subst hdir
        exact ⟨d, ek, info, rfl, he, hi, rfl⟩
      | none =>
        rw [hi] at h
        dsimp only at h
        cases hscan : scanCandidates p st dir d (allowedBudget d.width d.height)
            ((mapGet st.bucketToKeys
              ⟨d.width, d.height, computeFingerprint d⟩).getD []) none with
        | none =>
          rw [hscan] at h
          exact absurd h (by simp)
        | some best =>
          rw [hscan] at h
          dsimp only at h
          cases best with
          | none =>
            unfold registerNew at h
            dsimp only at h
            simp only [Option.some.injEq, Prod.mk.injEq] at h
            obtain ⟨hr, hst, hdir⟩ := h
            subst hr
            subst hst
            subst hdir
            refine ⟨d, ⟨hashPngPixels d⟩,
              ⟨⟨hashPngPixels d⟩, d.width, d.height, computeFingerprint d,
                ⟨p.sharedDir, FileName.conv ⟨hashPngPixels d⟩⟩,
                texturePathForKey p ⟨hashPngPixels d⟩⟩, rfl, ?_, ?_, rfl⟩
            · exact mapGet_mapSet_self _ _ _
            · exact mapGet_mapSet_self _ _ _
          | some mk =>
            obtain ⟨m, bestKey⟩ := mk
            dsimp only at h
            cases hbi : mapGet st.keyToInfo bestKey with
            | some binfo =>
              rw [hbi] at h
              dsimp only at h
              simp only [Option.some.injEq, Prod.mk.injEq] at h
              obtain ⟨hr, hst, hdir⟩ := h
              subst hr
              subst hst
              subst hdir
              exact ⟨d, bestKey, binfo, rfl, mapGet_mapSet_self _ _ _, hbi, rfl⟩
            | none =>
              rw [hbi] at h
              dsimp only at h
              unfold registerNew at h
              dsimp only at h
              simp only [Option.some.injEq, Prod.mk.injEq] at h
              obtain ⟨hr, hst, hdir⟩ := h
              subst hr
              subst hst
              subst hdir
              refine ⟨d, ⟨hashPngPixels d⟩,
                ⟨⟨hashPngPixels d⟩, d.width, d.height, computeFingerprint d,
                  ⟨p.sharedDir, FileName.conv ⟨hashPngPixels d⟩⟩,
                  texturePathForKey p ⟨hashPngPixels d⟩⟩, rfl, ?_, ?_, rfl⟩
              · exact mapGet_mapSet_self _ _ _
              · exact mapGet_mapSet_self _ _ _
    | none =>
      rw [he] at h
      dsimp only at h
      cases hscan : scanCandidates p st dir d (allowedBudget d.width d.height)
          ((mapGet st.bucketToKeys
            ⟨d.width, d.height, computeFingerprint d⟩).getD []) none with
      | none =>
        rw [hscan] at h
        exact absurd h (by simp)
      | some best =>
        rw [hscan] at h
        dsimp only at h
        cases best with
        | none =>
          unfold registerNew at h
          dsimp only at h
          simp only [Option.some.injEq, Prod.mk.injEq] at h
          obtain ⟨hr, hst, hdir⟩ := h
          subst hr
          subst hst
          subst hdir
          refine ⟨d, ⟨hashPngPixels d⟩,
            ⟨⟨hashPngPixels d⟩, d.width, d.height, computeFingerprint d,
              ⟨p.sharedDir, FileName.conv ⟨hashPngPixels d⟩⟩,
              texturePathForKey p ⟨hashPngPixels d⟩⟩, rfl, ?_, ?_, rfl⟩
          · exact mapGet_mapSet_self _ _ _
          · exact mapGet_mapSet_self _ _ _
        | some mk =>
          obtain ⟨m, bestKey⟩ := mk
          dsimp only at h
          cases hbi : mapGet st.keyToInfo bestKey with
          | some binfo =>
            rw [hbi] at h
            dsimp only at h
            simp only [Option.some.injEq, Prod.mk.injEq] at h
            obtain ⟨hr, hst, hdir⟩ := h
            subst hr
            subst hst
            subst hdir
            exact ⟨d, bestKey, binfo, rfl, mapGet_mapSet_self _ _ _, hbi, rfl⟩
          | none =>
            rw [hbi] at h
            dsimp only at h
            unfold registerNew at h
            dsimp only at h
            simp only [Option.some.injEq, Prod.mk.injEq] at h
            obtain ⟨hr, hst, hdir⟩ := h
            subst hr
            subst hst
            subst hdir
            refine ⟨d, ⟨hashPngPixels d⟩,
              ⟨⟨hashPngPixels d⟩, d.width, d.height, computeFingerprint d,
                ⟨p.sharedDir, FileName.conv ⟨hashPngPixels d⟩⟩,
                texturePathForKey p ⟨hashPngPixels d⟩⟩, rfl, ?_, ?_, rfl⟩
            · exact mapGet_mapSet_self _ _ _
            · exact mapGet_mapSet_self _ _ _

/-- A second registration of the same bytes right after a successful one
returns the same reference and leaves store and directory unchanged. -/
theorem register_idem (p : StoreParams) (st : Store) (dir : Dir) (b : Buffer)
    (r : RegisterResult) (st' : Store) (dir' : Dir)
    (h : register p st dir b = some (r, st', dir')) :
    register p st' dir' b = some (r, st', dir') := by
  obtain ⟨d, K, info, hd, he, hi, hr⟩ := register_success_inv p st dir b r st' dir' h
  subst hr
  exact register_exact_hit p st' dir' b d K info hd he hi

theorem mapGet_mapSet_isSome [DecidableEq α] (m : List (α × β)) (k x : α) (v : β)
    (h : (mapGet m x).isSome) : (mapGet (mapSet m k v) x).isSome := by
  by_cases hx : x = k
  · subst hx
    simp
  · rw [mapGet_mapSet_ne m k x v hx]
    exact h

theorem mapSet_fresh [DecidableEq α] (m : List (α × β)) (k : α) (v : β)
    (h : k ∉ m.map Prod.fst) : mapSet m k v = m ++ [(k, v)] := by
  induction m with
  | nil => rfl
  | cons hd tl ih =>
    obtain ⟨k₀, v₀⟩ := hd
    simp only [List.map_cons, List.mem_cons, not_or] at h
    obtain ⟨hne, htl⟩ := h
    have hne' : k₀ ≠ k := fun he => hne he.symm
    simp only [mapSet, if_neg hne', ih htl, List.cons_append]

/-! ## Lemmas about rehydration -/

theorem init_single (p : StoreParams) (b : Buffer) (d : DecodedPng)
    (hd : decodePng b = some d) :
    init p (.readable [⟨FileName.conv (freshKey d), true, b⟩]) =
      .ok ((freshResult p d b).2.1, [⟨FileName.conv (freshKey d), true, b⟩]) := by
  unfold init initLoop
  dsimp only
  rw [hd]
  rfl

theorem mem_convFileKeys (entries : Dir) (k : StoreKey) :
    k ∈ convFileKeys entries ↔
      ∃ e ∈ entries, e.isFile = true ∧ e.name = FileName.conv k := by
  simp only [convFileKeys, List.mem_filterMap]
  constructor
  · rintro ⟨e, he, hf⟩
    cases hisf : e.isFile
    · rw [hisf] at hf
      simp at hf
    · rw [hisf] at hf
      simp only [if_true] at hf
      cases hname : e.name with
      | conv k' =>
        rw [hname] at hf
        simp only [Option.some.injEq] at hf
        subst hf
        exact ⟨e, he, hisf, hname⟩
      | other s =>
        rw [hname] at hf
        simp at hf
  · rintro ⟨e, he, hisf, hname⟩
    refine ⟨e, he, ?_⟩
    rw [hisf, hname]
    simp

theorem convFileKeys_nodup (entries : Dir)
    (h : (entries.map (·.name)).Nodup) : (convFileKeys entries).Nodup := by
  induction entries with
  | nil => exact List.nodup_nil
  | cons e rest ih =>
    simp only [List.map_cons, List.nodup_cons] at h
    obtain ⟨hhead, htail⟩ := h
    cases hisf : e.isFile
    · have : convFileKeys (e :: rest) = convFileKeys rest := by
        simp [convFileKeys, hisf]
      rw [this]
      exact ih htail
    · cases hname : e.name with
      | other s =>
        have : convFileKeys (e :: rest) = convFileKeys rest := by
          simp [convFileKeys, hisf, hname]
        rw [this]
        exact ih htail
      | conv k =>
        have : convFileKeys (e :: rest) = k :: convFileKeys rest := by
          simp [convFileKeys, hisf, hname]
        rw [this]
        refine List.nodup_cons.mpr ⟨fun hk => ?_, ih htail⟩
        obtain ⟨e', he', hisf', hname'⟩ := (mem_convFileKeys rest k).mp hk
        apply hhead
        rw [hname]
        exact List.mem_map.mpr ⟨e', he', hname'⟩

theorem initLoop_keys (p : StoreParams) :
    ∀ (entries : Dir) (st : Store),
      (∀ e ∈ entries, e.isFile = true → ∀ k, e.name = FileName.conv k →
        (decodePng e.content).isSome) →
      (convFileKeys entries).Nodup →
      (∀ k ∈ convFileKeys entries, k ∉ st.keyToInfo.map Prod.fst) →
      ∃ st', initLoop p entries st = .ok st' ∧
        st'.keyToInfo.map Prod.fst =
          st.keyToInfo.map Prod.fst ++ convFileKeys entries := by
  intro entries
  induction entries with
  | nil =>
    intro st _ _ _
    exact ⟨st, rfl, by simp [convFileKeys]⟩
  | cons e rest ih =>
    intro st hdec hnodup hfresh
    cases hisf : e.isFile
    · have hck : convFileKeys (e :: rest) = convFileKeys rest := by
        simp [convFileKeys, hisf]
      rw [hck] at hnodup hfresh
      obtain ⟨st', hloop, hkeys⟩ := ih st
        (fun e' he' => hdec e' (List.mem_cons_of_mem _ he')) hnodup hfresh
      refine ⟨st', ?_, by rw [hkeys, hck]⟩
      rw [initLoop, hisf]
      simpa using hloop
    · cases hname : e.name with
      | other s =>
        have hck : convFileKeys (e :: rest) = convFileKeys rest := by
          simp [convFileKeys, hisf, hname]
        rw [hck] at hnodup hfresh
        obtain ⟨st', hloop, hkeys⟩ := ih st
          (fun e' he' => hdec e' (List.mem_cons_of_mem _ he')) hnodup hfresh
        refine ⟨st', ?_, by rw [hkeys, hck]⟩
        rw [initLoop, hisf, hname]
        simpa using hloop
      | conv k =>
        have hck : convFileKeys (e :: rest) = k :: convFileKeys rest := by
          simp [convFileKeys, hisf, hname]
        have hdece : (decodePng e.content).isSome :=
          hdec e (List.mem_cons_self _ _) hisf k hname
        obtain ⟨d, hd⟩ := Option.isSome_iff_exists.mp hdece
        rw [hck] at hnodup hfresh
        have hkfresh : k ∉ st.keyToInfo.map Prod.fst :=
          hfresh k (List.mem_cons_self _ _)
        set info : SharedTextureInfo :=
          ⟨k, d.width, d.height, computeFingerprint d,
            ⟨p.sharedDir, FileName.conv k⟩, texturePathForKey p k⟩ with hinfo
        set st₁ : Store :=
          { keyToInfo := mapSet st.keyToInfo k info,
            exactHashToKey := mapSet st.exactHashToKey (hashPngPixels d) k,
            bucketToKeys := mapSet st.bucketToKeys
              ⟨d.width, d.height, computeFingerprint d⟩
              (jsSortKeys ((mapGet st.bucketToKeys
                ⟨d.width, d.height, computeFingerprint d⟩).getD [] ++ [k])) }
          with hst₁
        have hkeys₁ : st₁.keyToInfo.map Prod.fst =
            st.keyToInfo.map Prod.fst ++ [k] := by
          rw [hst₁]
          dsimp only
          rw [mapSet_fresh st.keyToInfo k info hkfresh, List.map_append]
          rfl
        obtain ⟨st', hloop, hkeys⟩ := ih st₁
          (fun e' he' => hdec e' (List.mem_cons_of_mem _ he'))
          (List.nodup_cons.mp hnodup).2
          (by
            intro k' hk'
            rw [hkeys₁]
            simp only [List.mem_append, List.mem_singleton, not_or]
            exact ⟨hfresh k' (List.mem_cons_of_mem _ hk'),
              fun he => (List.nodup_cons.mp hnodup).1 (he ▸ hk')⟩)
        refine ⟨st', ?_, ?_⟩
        · rw [initLoop, hisf, hname]
          dsimp only
          rw [hd]
          exact hloop
        · rw [hkeys, hkeys₁, hck]
          simp

/-! ## More lemmas about the scan and `register` -/

theorem candidateOutcome_congr (p : StoreParams) (st st' : Store) (dir : Dir)
    (decoded : DecodedPng) (allowed : Nat) (key : StoreKey)
    (hk : st.keyToInfo = st'.keyToInfo) :
    candidateOutcome p st dir decoded allowed key =
      candidateOutcome p st' dir decoded allowed key := by
  unfold candidateOutcome
  rw [hk]

theorem scanCandidates_congr (p : StoreParams) (st st' : Store) (dir : Dir)
    (decoded : DecodedPng) (allowed : Nat)
    (hk : st.keyToInfo = st'.keyToInfo) :
    ∀ (cands : List StoreKey) (best : Option (Nat × StoreKey)),
      scanCandidates p st dir decoded allowed cands best =
        scanCandidates p st' dir decoded allowed cands best := by
  intro cands
  induction cands with
  | nil => intro best; rfl
  | cons k0 rest ih =>
    intro best
    rw [scanCandidates, scanCandidates]
    have hstep : candidateStep p st dir decoded allowed best k0 =
        candidateStep p st' dir decoded allowed best k0 := by
      unfold candidateStep
      rw [hk]
    rw [hstep]
    cases candidateStep p st' dir decoded allowed best k0 with
    | none => rfl
    | some best' => exact ih best'

theorem register_exact_miss (p : StoreParams) (st : Store) (dir : Dir) (b : Buffer)
    (d : DecodedPng) (hd : decodePng b = some d)
    (hmiss : (match mapGet st.exactHashToKey (hashPngPixels d) with
              | some existingKey => mapGet st.keyToInfo existingKey
              | none => none) = (none : Option SharedTextureInfo)) :
    register p st dir b =
      match scanCandidates p st dir d (allowedBudget d.width d.height)
          ((mapGet st.bucketToKeys ⟨d.width, d.height, computeFingerprint d⟩).getD [])
          none with
      | none => none
      | some best =>
        match best with
        | some (_, bestKey) =>
          match mapGet st.keyToInfo bestKey with
          | some info =>
            some (⟨info.texturePath, info.filePath⟩,
              { st with exactHashToKey :=
                  mapSet st.exactHashToKey (hashPngPixels d) bestKey }, dir)
          | none => some (registerNew p st dir b d (hashPngPixels d)
              (computeFingerprint d) ⟨d.width, d.height, computeFingerprint d⟩)
        | none => some (registerNew p st dir b d (hashPngPixels d)
            (computeFingerprint d) ⟨d.width, d.height, computeFingerprint d⟩) := by
  unfold register
  rw [hd]
  dsimp only
  rw [hmiss]

theorem scanCandidates_min (p : StoreParams) (st : Store) (dir : Dir)
    (decoded : DecodedPng) (allowed : Nat) (cands : List StoreKey)
    (m : Nat) (k : StoreKey)
    (h : scanCandidates p st dir decoded allowed cands none = some (some (m, k))) :
    k ∈ cands ∧ candidateOutcome p st dir decoded allowed k = .qual m ∧
      ∀ k' ∈ cands, ∀ n, candidateOutcome p st dir decoded allowed k' = .qual n →
        m ≤ n ∧ (n = m → keyLtB k' k = false) := by
  have hnoerr : ∀ k' ∈ cands, candidateOutcome p st dir decoded allowed k' ≠ .err := by
    intro k' hk' hke
    rw [scanCandidates_err p st dir decoded allowed cands none ⟨k', hk', hke⟩] at h
    exact Option.noConfusion h
  rw [scanCandidates_ok p st dir decoded allowed cands none hnoerr] at h
  injection h with h
  obtain ⟨hmem, hmin, -⟩ := foldl_pickBest_spec _ none (m, k) h
  have hmemq : (m, k) ∈ qualPairs p st dir decoded allowed cands := by
    rcases hmem with hmem | hmem
    · exact hmem
    · exact absurd hmem (by simp)
  obtain ⟨hkc, hout⟩ := (mem_qualPairs p st dir decoded allowed cands (m, k)).mp hmemq
  refine ⟨hkc, hout, ?_⟩
  intro k' hk' n hout'
  have hq' : (n, k') ∈ qualPairs p st dir decoded allowed cands :=
    (mem_qualPairs p st dir decoded allowed cands (n, k')).mpr ⟨hk', hout'⟩
  have hlt := hmin (n, k') hq'
  simp only [pairLtB, improves, Bool.or_eq_false_iff, Bool.and_eq_false_iff,
    decide_eq_false_iff_not] at hlt
  obtain ⟨hlt1, hlt2⟩ := hlt
  refine ⟨by omega, fun hnm => ?_⟩
  rcases hlt2 with hlt2 | hlt2
  · exact absurd hnm hlt2
  · exact hlt2

/-! ## Lemmas about the index invariant -/

theorem emptyStore_invariant : StoreInvariant emptyStore := by
  refine ⟨fun bk l hl => ?_, fun h k hk => ?_, fun bk l k hl hm => ?_, ?_⟩
  · simp [emptyStore] at hl
  · simp [emptyStore] at hk
  · simp [emptyStore] at hl
  · simp [emptyStore]

theorem invariant_update (st : Store) (hInv : StoreInvariant st) (k : StoreKey)
    (info : SharedTextureInfo) (h0 : ExactHash) (bk : BucketKey) :
    StoreInvariant
      { keyToInfo := mapSet st.keyToInfo k info,
        exactHashToKey := mapSet st.exactHashToKey h0 k,
        bucketToKeys := mapSet st.bucketToKeys bk
          (jsSortKeys ((mapGet st.bucketToKeys bk).getD [] ++ [k])) } := by
  obtain ⟨hSort, hExact, hBucket, hNodup⟩ := hInv
  refine ⟨?_, ?_, ?_, nodup_fst_mapSet _ _ _ hNodup⟩
  · intro bk' l hl
    dsimp only at hl
    by_cases hbk : bk' = bk
    · subst hbk
      rw [mapGet_mapSet_self] at hl
      injection hl with hl
      subst hl
      exact pairwise_jsSortKeys _
    · rw [mapGet_mapSet_ne _ _ _ _ hbk] at hl
      exact hSort bk' l hl
  · intro h' k' hk'
    dsimp only at hk' ⊢
    by_cases hh : h' = h0
    · subst hh
      rw [mapGet_mapSet_self] at hk'
      injection hk' with hk'
      subst hk'
      simp
    · rw [mapGet_mapSet_ne _ _ _ _ hh] at hk'
      exact mapGet_mapSet_isSome _ _ _ _ (hExact h' k' hk')
  · intro bk' l k' hl hm
    dsimp only at hl ⊢
    by_cases hbk : bk' = bk
    · rw [hbk, mapGet_mapSet_self] at hl
      injection hl with hl
      subst hl
      rw [mem_jsSortKeys] at hm
      rcases List.mem_append.mp hm with hm | hm
      · cases hbg : mapGet st.bucketToKeys bk with
        | none => rw [hbg] at hm; simp at hm
        | some l0 =>
          rw [hbg] at hm
          simp only [Option.getD_some] at hm
          exact mapGet_mapSet_isSome _ _ _ _ (hBucket bk l0 k' hbg hm)
      · simp only [List.mem_singleton] at hm
        subst hm
        simp
    · rw [mapGet_mapSet_ne _ _ _ _ hbk] at hl
      exact mapGet_mapSet_isSome _ _ _ _ (hBucket bk' l k' hl hm)

theorem initLoop_invariant (p : StoreParams) :
    ∀ (entries : Dir) (st : Store), StoreInvariant st →
      ∀ st', initLoop p entries st = .ok st' → StoreInvariant st' := by
  intro entries
  induction entries with
  | nil =>
    intro st hInv st' h
    rw [initLoop] at h
    injection h with h
    subst h
    exact hInv
  | cons e rest ih =>
    intro st hInv st' h
    rw [initLoop] at h
    cases hisf : e.isFile
    · rw [hisf] at h
      simp only [Bool.not_false, if_true] at h
      exact ih st hInv st' h
    · rw [hisf] at h
      simp only [Bool.not_true, if_false] at h
      cases hname : e.name with
      | other s =>
        rw [hname] at h
        exact ih st hInv st' h
      | conv keyFromName =>
        rw [hname] at h
        dsimp only at h
        cases hdec : decodePng e.content with
        | none =>
          rw [hdec] at h
          exact Except.noConfusion h
        | some d =>
          rw [hdec] at h
          dsimp only at h
          exact ih _ (invariant_update st hInv keyFromName _ _ _) st' h

theorem register_invariant (p : StoreParams) (st : Store) (dir : Dir) (b : Buffer)
    (r : RegisterResult) (st' : Store) (dir' : Dir) (hInv : StoreInvariant st)
    (h : register p st dir b = some (r, st', dir')) : StoreInvariant st' := by
  cases hd : decodePng b with
  | none =>
    unfold register at h
    rw [hd] at h
    exact absurd h (by simp)
  | some d =>
    unfold register at h
    rw [hd] at h
    dsimp only at h
    have hcollapse : ∀ bestKey binfo,
        mapGet st.keyToInfo bestKey = some binfo →
        StoreInvariant
          { st with exactHashToKey :=
              mapSet st.exactHashToKey (hashPngPixels d) bestKey } := by
      intro bestKey binfo hbi
      obtain ⟨hSort, hExact, hBucket, hNodup⟩ := hInv
      refine ⟨hSort, ?_, hBucket, hNodup⟩
      intro h' k' hk'
      dsimp only at hk'
      by_cases hh : h' = hashPngPixels d
      · subst hh
        rw [mapGet_mapSet_self] at hk'
        injection hk' with hk'
        subst hk'
        rw [hbi]
        rfl
      · rw [mapGet_mapSet_ne _ _ _ _ hh] at hk'
        exact hExact h' k' hk'
    have hnew : StoreInvariant (registerNew p st dir b d (hashPngPixels d)
        (computeFingerprint d) ⟨d.width, d.height, computeFingerprint d⟩).2.1 := by
      unfold registerNew
      dsimp only
      exact invariant_update st hInv _ _ _ _
    cases he : mapGet st.exactHashToKey (hashPngPixels d) with
    | some ek =>
      rw [he] at h
      dsimp only at h
      cases hi : mapGet st.keyToInfo ek with
      | some info =>
        rw [hi] at h
        dsimp only at h
        simp only [Option.some.injEq, Prod.mk.injEq] at h
        obtain ⟨-, hst, -⟩ := h
        subst hst
        exact hInv
      | none =>
        rw [hi] at h
        dsimp only at h
        cases hscan : scanCandidates p st dir d (allowedBudget d.width d.height)
            ((mapGet st.bucketToKeys
              ⟨d.width, d.height, computeFingerprint d⟩).getD []) none with
        | none =>
          rw [hscan] at h
          exact absurd h (by simp)
        | some best =>
          rw [hscan] at h
          dsimp only at h
          cases best with
          | none =>
            injection h with h
            have hst : st' = (registerNew p st dir b d (hashPngPixels d)
                (computeFingerprint d) ⟨d.width, d.height, computeFingerprint d⟩).2.1 := by
              rw [h]
            rw [hst]
            exact hnew
          | some mk =>
            obtain ⟨m, bestKey⟩ := mk
            dsimp only at h
            cases hbi : mapGet st.keyToInfo bestKey with
            | some binfo =>
              rw [hbi] at h
              dsimp only at h
              simp only [Option.some.injEq, Prod.mk.injEq] at h
              obtain ⟨-, hst, -⟩ := h
              subst hst
              exact hcollapse bestKey binfo hbi
            | none =>
              rw [hbi] at h
              dsimp only at h
              injection h with h
              have hst : st' = (registerNew p st dir b d (hashPngPixels d)
                  (computeFingerprint d) ⟨d.width, d.height, computeFingerprint d⟩).2.1 := by
                rw [h]
              rw [hst]
              exact hnew
    | none =>
      rw [he] at h
      dsimp only at h
      cases hscan : scanCandidates p st dir d (allowedBudget d.width d.height)
          ((mapGet st.bucketToKeys
            ⟨d.width, d.height, computeFingerprint d⟩).getD []) none with
      | none =>
        rw [hscan] at h
        exact absurd h (by simp)
      | some best =>
        rw [hscan] at h
        dsimp only at h
        cases best with
        | none =>
          injection h with h
          have hst : st' = (registerNew p st dir b d (hashPngPixels d)
              (computeFingerprint d) ⟨d.width, d.height, computeFingerprint d⟩).2.1 := by
            rw [h]
          rw [hst]
          exact hnew
        | some mk =>
          obtain ⟨m, bestKey⟩ := mk
          dsimp only at h
          cases hbi : mapGet st.keyToInfo bestKey with
          | some binfo =>
            rw [hbi] at h
            dsimp only at h
            simp only [Option.some.injEq, Prod.mk.injEq] at h
            obtain ⟨-, hst, -⟩ := h
            subst hst
            exact hcollapse bestKey binfo hbi
          | none =>
            rw [hbi] at h
            dsimp only at h
            injection h with h
            have hst : st' = (registerNew p st dir b d (hashPngPixels d)
                (computeFingerprint d) ⟨d.width, d.height, computeFingerprint d⟩).2.1 := by
              rw [h]
            rw [hst]
            exact hnew

theorem init_invariant (p : StoreParams) (dst : DirState) (st : Store) (dir : Dir)
    (h : init p dst = .ok (st, dir)) : StoreInvariant st := by
  cases dst with
  | absent =>
    unfold init at h
    rw [initLoop] at h
    simp only [Except.map] at h
    injection h with h
    have hst : st = emptyStore := by
      have := congrArg Prod.fst h.symm
      exact this
    rw [hst]
    exact emptyStore_invariant
  | unreadable => exact Except.noConfusion h
  | readable entries =>
    unfold init at h
    dsimp only at h
    cases hloop : initLoop p entries emptyStore with
    | error e =>
      rw [hloop] at h
      exact Except.noConfusion h
    | ok st0 =>
      rw [hloop] at h
      simp only [Except.map] at h
      injection h with h
      have hst : st = st0 := (congrArg Prod.fst h.symm)
      rw [hst]
      exact initLoop_invariant p entries emptyStore emptyStore_invariant st0 hloop

theorem hashPngPixels_eq_iff (d1 d2 : DecodedPng) :
    hashPngPixels d1 = hashPngPixels d2 ↔
      d1.width = d2.width ∧ d1.height = d2.height ∧ d1.data = d2.data := by
  simp [hashPngPixels, ExactHash.mk.injEq]

theorem data_ne_of_mismatch (a b : List Nat) (h : 1 ≤ trueMismatchCount a b) :
    a ≠ b := by
  intro he
  subst he
  rw [trueMismatchCount_self] at h
  omega

/-- Evaluation of the candidate scan on a single-candidate bucket whose
entry and file are consistent. -/
theorem scan_single (p : StoreParams) (st : Store) (dir : Dir) (decoded : DecodedPng)
    (allowed : Nat) (kB : StoreKey) (infoB : SharedTextureInfo) (bB : Buffer)
    (dB : DecodedPng)
    (hi : mapGet st.keyToInfo kB = some infoB)
    (hwi : infoB.width = decoded.width) (hhi : infoB.height = decoded.height)
    (hread : readFile p dir infoB.filePath = some bB)
    (hdec : decodePng bB = some dB)
    (hwd : dB.width = decoded.width) (hhd : dB.height = decoded.height) :
    scanCandidates p st dir decoded allowed [kB] none =
      some (if countMismatchedPixels decoded.data dB.data allowed ≤ allowed
        then some (countMismatchedPixels decoded.data dB.data allowed, kB)
        else none) := by
  rw [scanCandidates]
  have hstep : candidateStep p st dir decoded allowed none kB =
      some (if countMismatchedPixels decoded.data dB.data allowed ≤ allowed
        then some (countMismatchedPixels decoded.data dB.data allowed, kB)
        else none) := by
    unfold candidateStep
    rw [hi]
    dsimp only
    rw [if_neg (by push_neg; exact ⟨hwi, hhi⟩)]
    rw [hread]
    dsimp only
    rw [hdec]
    dsimp only
    rw [if_neg (by push_neg; exact ⟨hwd, hhd⟩)]
    by_cases hle : countMismatchedPixels decoded.data dB.data allowed ≤ allowed
    · rw [if_pos (by simp [hle, improves]), if_pos hle]
    · rw [if_neg (by simp [hle]), if_neg hle]
  rw [hstep]
  rfl

/-! ## Lemmas about garbage collection -/

theorem prune_foldl_eq (used : List StoreKey) :
    ∀ (l acc : Dir),
      (l.foldl (fun fs e =>
        if e.isFile then
          match e.name with
          | FileName.conv key => if used.contains key then fs else rmFile fs e.name
          | FileName.other _ => fs
        else fs) acc) =
      acc.filter fun e2 =>
        !(l.any fun e => (e.isFile &&
            match e.name with
            | FileName.conv k => !used.contains k
            | FileName.other _ => false) && decide (e.name = e2.name)) := by
  intro l
  induction l with
  | nil =>
    intro acc
    simp
  | cons e l ih =>
    intro acc
    rw [List.foldl_cons, ih]
    have hsplit : ∀ e2 : DirEntry,
        (!((e :: l).any fun e' => (e'.isFile &&
            match e'.name with
            | FileName.conv k => !used.contains k
            | FileName.other _ => false) && decide (e'.name = e2.name))) =
        ((!((e.isFile &&
            match e.name with
            | FileName.conv k => !used.contains k
            | FileName.other _ => false) && decide (e.name = e2.name))) &&
          (!(l.any fun e' => (e'.isFile &&
            match e'.name with
            | FileName.conv k => !used.contains k
            | FileName.other _ => false) && decide (e'.name = e2.name)))) := by
      intro e2
      rw [List.any_cons, Bool.not_or]
    have hstep : (if e.isFile then
          match e.name with
          | FileName.conv key => if used.contains key then acc else rmFile acc e.name
          | FileName.other _ => acc
        else acc) =
        acc.filter fun e2 => !((e.isFile &&
            match e.name with
            | FileName.conv k => !used.contains k
            | FileName.other _ => false) && decide (e.name = e2.name)) := by
      cases hisf : e.isFile
      · simp [hisf]
      · cases hname : e.name with
        | other s => simp [hisf, hname]
        | conv k =>
          cases hmem : used.contains k
          · simp only [hisf, hname, hmem, if_true, Bool.true_and, Bool.not_false]
            unfold rmFile
            apply List.filter_congr
            intro e2 _
            by_cases hn : FileName.conv k = e2.name
            · simp [hn]
            · have hn' : e2.name ≠ FileName.conv k := fun h => hn h.symm
              simp [hn, hn']
          · have hmem' : k ∈ used := by simpa using hmem
            simp [hisf, hname, hmem, hmem']
    rw [hstep]
    rw [List.filter_filter]
    apply List.filter_congr
    intro e2 _
    rw [hsplit e2]
    rw [Bool.and_comm]

theorem prune_eq_filter (ns : String) (docs : List UiDoc) (dir : Dir)
    (hnodup : (dir.map (·.name)).Nodup) :
    pruneUnusedSharedTextures ns docs dir = dir.filter fun e =>
      !(e.isFile && match e.name with
        | FileName.conv k => !(referencedKeys ns docs).contains k
        | FileName.other _ => false) := by
  unfold pruneUnusedSharedTextures
  rw [prune_foldl_eq (referencedKeys ns docs) dir dir]
  apply List.filter_congr
  intro e2 he2
  congr 1
  cases hdel : (e2.isFile && match e2.name with
      | FileName.conv k => !(referencedKeys ns docs).contains k
      | FileName.other _ => false)
  · rw [List.any_eq_false]
    intro e he
    intro hcontra
    rw [Bool.and_eq_true] at hcontra
    obtain ⟨hdel', hname⟩ := hcontra
    rw [decide_eq_true_iff] at hname
    have he2' : e = e2 := by
      have hinj := List.inj_on_of_nodup_map hnodup
      exact hinj he he2 hname
    rw [he2'] at hdel'
    rw [hdel'] at hdel
    exact Bool.noConfusion hdel
  · rw [List.any_eq_true]
    refine ⟨e2, he2, ?_⟩
    rw [Bool.and_eq_true]
    exact ⟨hdel, by simp⟩

/-! ## The claims -/

/-- C5: for every decoded buffer of width `w` and height `h`, `register`
computes the allowed mismatch budget as
`min(floor(w*h * (1 - similarityThreshold)), maxMismatchCap)` with
`similarityThreshold = 0.999` and `maxMismatchCap = 64` — `allowedBudget`
(the budget `register` uses) equals that formula (`allowedBudgetFormula`),
whose exact value is `min (w*h/1000) 64`. -/
theorem C5_allowed_budget (width height : Nat) :
    allowedBudget width height = allowedBudgetFormula width height ∧
    allowedBudgetFormula width height = min (width * height / 1000) 64 ∧
    DEDUPE_SIMILARITY_THRESHOLD = 999 / 1000 ∧
    DEDUPE_MAX_MISMATCH_PIXELS = 64 := by
  have hform : allowedBudgetFormula width height = min (width * height / 1000) 64 := by
    unfold allowedBudgetFormula DEDUPE_SIMILARITY_THRESHOLD DEDUPE_MAX_MISMATCH_PIXELS
    dsimp only
    have h1 : (1 - (999 / 1000 : ℚ)) = 1 / 1000 := by norm_num
    rw [h1, mul_one_div]
    congr 1
    rw [show ((1000 : ℚ)) = ((1000 : ℕ) : ℚ) by norm_num]
    rw [Nat.floor_div_nat, Nat.floor_natCast]
  refine ⟨?_, hform, rfl, rfl⟩
  rw [hform]
  rfl

/-- C10: if the persistence directory exists but is not readable,
rehydration (`init`) fails with the spec's `StoreInitError` (the propagated
`readdir` rejection), fatal to store startup. -/
theorem C10_unreadable_dir (p : StoreParams) :
    init p .unreadable = .error .storeInitError := rfl

/-- C2: two encoded buffers that decode to byte-identical `PixelBuffer`s
(same dimensions, same bytes) registered into a fresh store yield identical
references (same `texturePath` and `filePath`), and exactly one file is
persisted for the pair. -/
theorem C2_exact_dedup (p : StoreParams) (b1 b2 : Buffer) (d : DecodedPng)
    (h1 : decodePng b1 = some d) (h2 : decodePng b2 = some d) :
    ∃ r st1 dir1, register p emptyStore [] b1 = some (r, st1, dir1) ∧
      register p st1 dir1 b2 = some (r, st1, dir1) ∧ dir1.length = 1 := by
  refine ⟨(freshResult p d b1).1, (freshResult p d b1).2.1, (freshResult p d b1).2.2,
    register_empty_eq p b1 d h1, ?_, rfl⟩
  have he : mapGet (freshResult p d b1).2.1.exactHashToKey (hashPngPixels d) =
      some (freshKey d) := by
    simp [freshResult]
  have hi : mapGet (freshResult p d b1).2.1.keyToInfo (freshKey d) =
      some ⟨freshKey d, d.width, d.height, computeFingerprint d,
        ⟨p.sharedDir, FileName.conv (freshKey d)⟩, texturePathForKey p (freshKey d)⟩ := by
    simp [freshResult]
  exact register_exact_hit p _ _ b2 d _ _ h2 he hi

/-- C2 witness: two distinct 1×1 encodings of the same pixels. -/
theorem C2_exact_dedup_witness :
    ∃ r st1 dir1,
      register exampleParams emptyStore [] ⟨0, some ⟨1, 1, [0, 0, 0, 255]⟩⟩ =
        some (r, st1, dir1) ∧
      register exampleParams st1 dir1 ⟨1, some ⟨1, 1, [0, 0, 0, 255]⟩⟩ =
        some (r, st1, dir1) ∧
      dir1.length = 1 :=
  C2_exact_dedup exampleParams ⟨0, some ⟨1, 1, [0, 0, 0, 255]⟩⟩
    ⟨1, some ⟨1, 1, [0, 0, 0, 255]⟩⟩ ⟨1, 1, [0, 0, 0, 255]⟩ rfl rfl

/-- C4: registering the same bytes twice returns the same reference: a
second `register` right after a successful one returns the same reference
with store and directory unchanged, and when the first call started from a
fresh store, the same holds across a teardown and rehydration of the
(unchanged) persistence directory in between. -/
theorem C4_idempotent_across_rehydration (p : StoreParams) (st : Store) (dir : Dir)
    (b : Buffer) (r : RegisterResult) (st' : Store) (dir' : Dir)
    (h : register p st dir b = some (r, st', dir')) :
    register p st' dir' b = some (r, st', dir') ∧
    (st = emptyStore → dir = [] →
      ∃ st2, init p (.readable dir') = .ok (st2, dir') ∧
        ∃ st3 dir3, register p st2 dir' b = some (r, st3, dir3)) := by
  refine ⟨register_idem p st dir b r st' dir' h, ?_⟩
  rintro rfl rfl
  obtain ⟨d, hd⟩ : ∃ d, decodePng b = some d := by
    cases hdec : decodePng b with
    | none =>
      unfold register at h
      rw [hdec] at h
      exact absurd h (by simp)
    | some d => exact ⟨d, rfl⟩
  have hfresh := register_empty_eq p b d hd
  rw [hfresh] at h
  injection h with h
  have hr : r = (freshResult p d b).1 := by rw [h]
  have hst : st' = (freshResult p d b).2.1 := by rw [h]
  have hdir : dir' = (freshResult p d b).2.2 := by rw [h]
  subst hr
  subst hst
  subst hdir
  refine ⟨(freshResult p d b).2.1, init_single p b d hd, (freshResult p d b).2.1,
    (freshResult p d b).2.2, ?_⟩
  have he : mapGet (freshResult p d b).2.1.exactHashToKey (hashPngPixels d) =
      some (freshKey d) := by
    simp [freshResult]
  have hi : mapGet (freshResult p d b).2.1.keyToInfo (freshKey d) =
      some ⟨freshKey d, d.width, d.height, computeFingerprint d,
        ⟨p.sharedDir, FileName.conv (freshKey d)⟩, texturePathForKey p (freshKey d)⟩ := by
    simp [freshResult]
  exact register_exact_hit p _ _ b d _ _ hd he hi

/-- C4 witness: a 1×1 buffer registered from a fresh store. -/
theorem C4_idempotent_witness :
    register exampleParams
        (freshResult exampleParams ⟨1, 1, [0, 0, 0, 255]⟩ ⟨0, some ⟨1, 1, [0, 0, 0, 255]⟩⟩).2.1
        (freshResult exampleParams ⟨1, 1, [0, 0, 0, 255]⟩ ⟨0, some ⟨1, 1, [0, 0, 0, 255]⟩⟩).2.2
        ⟨0, some ⟨1, 1, [0, 0, 0, 255]⟩⟩ =
      some ((freshResult exampleParams ⟨1, 1, [0, 0, 0, 255]⟩
          ⟨0, some ⟨1, 1, [0, 0, 0, 255]⟩⟩).1,
        (freshResult exampleParams ⟨1, 1, [0, 0, 0, 255]⟩
          ⟨0, some ⟨1, 1, [0, 0, 0, 255]⟩⟩).2.1,
        (freshResult exampleParams ⟨1, 1, [0, 0, 0, 255]⟩
          ⟨0, some ⟨1, 1, [0, 0, 0, 255]⟩⟩).2.2) ∧
    (emptyStore = emptyStore → ([] : Dir) = [] →
      ∃ st2, init exampleParams
          (.readable (freshResult exampleParams ⟨1, 1, [0, 0, 0, 255]⟩
            ⟨0, some ⟨1, 1, [0, 0, 0, 255]⟩⟩).2.2) =
          .ok (st2, (freshResult exampleParams ⟨1, 1, [0, 0, 0, 255]⟩
            ⟨0, some ⟨1, 1, [0, 0, 0, 255]⟩⟩).2.2) ∧
        ∃ st3 dir3, register exampleParams st2
            (freshResult exampleParams ⟨1, 1, [0, 0, 0, 255]⟩
              ⟨0, some ⟨1, 1, [0, 0, 0, 255]⟩⟩).2.2
            ⟨0, some ⟨1, 1, [0, 0, 0, 255]⟩⟩ =
          some ((freshResult exampleParams ⟨1, 1, [0, 0, 0, 255]⟩
            ⟨0, some ⟨1, 1, [0, 0, 0, 255]⟩⟩).1, st3, dir3)) :=
  C4_idempotent_across_rehydration exampleParams emptyStore []
    ⟨0, some ⟨1, 1, [0, 0, 0, 255]⟩⟩ _ _ _ rfl

/-- C9: index consistency — `init` establishes and every successful
`register` preserves the invariant `StoreInvariant`: bucket lists sorted by
key, every key reachable from the exact map or a bucket resolves to exactly
one `StoreEntry`. -/
theorem C9_index_invariant (p : StoreParams) (dst : DirState) (st0 : Store)
    (dir0 : Dir) (st : Store) (dir : Dir) (b : Buffer) (r : RegisterResult)
    (st' : Store) (dir' : Dir)
    (hinit : init p dst = .ok (st0, dir0))
    (hInv : StoreInvariant st)
    (hreg : register p st dir b = some (r, st', dir')) :
    StoreInvariant st0 ∧ StoreInvariant st' :=
  ⟨init_invariant p dst st0 dir0 hinit,
    register_invariant p st dir b r st' dir' hInv hreg⟩

/-- C9 witness: rehydration of an empty directory and a fresh 1×1
registration. -/
theorem C9_index_invariant_witness :
    StoreInvariant emptyStore ∧
    StoreInvariant (freshResult exampleParams ⟨1, 1, [0, 0, 0, 255]⟩
      ⟨0, some ⟨1, 1, [0, 0, 0, 255]⟩⟩).2.1 :=
  C9_index_invariant exampleParams (.readable []) emptyStore [] emptyStore []
    ⟨0, some ⟨1, 1, [0, 0, 0, 255]⟩⟩ _ _ _ rfl emptyStore_invariant rfl

/-- C6: rehydration of a directory whose convention-matching files all
decode succeeds, its `Index` holds exactly those files' keys (one
`StoreEntry` per matching file, `N` in total), and every non-matching entry
is skipped — the key-to-entry map's keys are exactly the keys of the
matching regular files. -/
theorem C6_rehydration_fidelity (p : StoreParams) (entries : Dir)
    (hnames : (entries.map (·.name)).Nodup)
    (hdec : ∀ e ∈ entries, e.isFile = true → ∀ k, e.name = FileName.conv k →
      (decodePng e.content).isSome) :
    ∃ st, init p (.readable entries) = .ok (st, entries) ∧
      st.keyToInfo.map Prod.fst = convFileKeys entries ∧
      st.keyToInfo.length = (convFileKeys entries).length := by
  obtain ⟨st, hloop, hkeys⟩ := initLoop_keys p entries emptyStore hdec
    (convFileKeys_nodup entries hnames) (by simp [emptyStore])
  have hkeys' : st.keyToInfo.map Prod.fst = convFileKeys entries := by
    rw [hkeys]
    simp [emptyStore]
  refine ⟨st, ?_, hkeys', ?_⟩
  · unfold init
    dsimp only
    rw [hloop]
    rfl
  · rw [← List.length_map st.keyToInfo Prod.fst, hkeys']

/-- C6 witness: one valid file, one misnamed file, one non-file entry. -/
theorem C6_rehydration_fidelity_witness :
    ∃ st, init exampleParams (.readable
        [⟨FileName.conv ⟨⟨1, 1, [0, 0, 0, 255]⟩⟩, true, ⟨0, some ⟨1, 1, [0, 0, 0, 255]⟩⟩⟩,
         ⟨FileName.other "thumbs.db", true, ⟨1, none⟩⟩,
         ⟨FileName.other "subdir", false, ⟨2, none⟩⟩]) =
      .ok (st,
        [⟨FileName.conv ⟨⟨1, 1, [0, 0, 0, 255]⟩⟩, true, ⟨0, some ⟨1, 1, [0, 0, 0, 255]⟩⟩⟩,
         ⟨FileName.other "thumbs.db", true, ⟨1, none⟩⟩,
         ⟨FileName.other "subdir", false, ⟨2, none⟩⟩]) ∧
      st.keyToInfo.map Prod.fst = convFileKeys
        [⟨FileName.conv ⟨⟨1, 1, [0, 0, 0, 255]⟩⟩, true, ⟨0, some ⟨1, 1, [0, 0, 0, 255]⟩⟩⟩,
         ⟨FileName.other "thumbs.db", true, ⟨1, none⟩⟩,
         ⟨FileName.other "subdir", false, ⟨2, none⟩⟩] ∧
      st.keyToInfo.length = (convFileKeys
        [⟨FileName.conv ⟨⟨1, 1, [0, 0, 0, 255]⟩⟩, true, ⟨0, some ⟨1, 1, [0, 0, 0, 255]⟩⟩⟩,
         ⟨FileName.other "thumbs.db", true, ⟨1, none⟩⟩,
         ⟨FileName.other "subdir", false, ⟨2, none⟩⟩]).length :=
  C6_rehydration_fidelity exampleParams _ (by decide)
    (by
      intro e he hisf k hk
      simp only [List.mem_cons, List.not_mem_nil, or_false] at he
      rcases he with rfl | rfl | rfl
      · rfl
      · exact absurd hk (by simp)
      · exact absurd hisf (by simp))

/-- C7: `prune` deletes exactly the convention-named persisted files whose
keys are not textually referenced in any generated document, and keeps every
file whose key is referenced as well as every entry not matching the
convention. -/
theorem C7_gc_exactness (ns : String) (docs : List UiDoc) (dir : Dir)
    (hnodup : (dir.map (·.name)).Nodup) :
    pruneUnusedSharedTextures ns docs dir = (dir.filter fun e =>
      !(e.isFile && match e.name with
        | FileName.conv k => !(referencedKeys ns docs).contains k
        | FileName.other _ => false)) ∧
    (∀ e ∈ dir, ∀ k, e.isFile = true → e.name = FileName.conv k →
      (e ∈ pruneUnusedSharedTextures ns docs dir ↔ k ∈ referencedKeys ns docs)) ∧
    (∀ e ∈ dir, e.isFile = false ∨ (∀ k, e.name ≠ FileName.conv k) →
      e ∈ pruneUnusedSharedTextures ns docs dir) := by
  have hfil := prune_eq_filter ns docs dir hnodup
  refine ⟨hfil, ?_, ?_⟩
  · intro e he k hisf hname
    rw [hfil, List.mem_filter]
    constructor
    · rintro ⟨-, hpred⟩
      rw [hisf, hname] at hpred
      simp only [Bool.true_and, Bool.not_eq_true'] at hpred
      simpa using hpred
    · intro hmem
      refine ⟨he, ?_⟩
      rw [hisf, hname]
      simp [hmem]
  · intro e he hcond
    rw [hfil, List.mem_filter]
    refine ⟨he, ?_⟩
    rcases hcond with hcond | hcond
    · simp [hcond]
    · cases hname : e.name with
      | conv k => exact absurd hname (hcond k)
      | other s => simp

/-- C7 witness: documents referencing keys {A, C}, persisted files
{A, B, C}: exactly B is deleted. -/
theorem C7_gc_exactness_witness :
    pruneUnusedSharedTextures "ns"
        [[DocToken.ref "ns" ⟨⟨1, 1, [0]⟩⟩, DocToken.other "layout",
          DocToken.ref "ns" ⟨⟨1, 1, [2]⟩⟩]]
        [⟨FileName.conv ⟨⟨1, 1, [0]⟩⟩, true, ⟨0, none⟩⟩,
         ⟨FileName.conv ⟨⟨1, 1, [1]⟩⟩, true, ⟨1, none⟩⟩,
         ⟨FileName.conv ⟨⟨1, 1, [2]⟩⟩, true, ⟨2, none⟩⟩] =
      [⟨FileName.conv ⟨⟨1, 1, [0]⟩⟩, true, ⟨0, none⟩⟩,
       ⟨FileName.conv ⟨⟨1, 1, [2]⟩⟩, true, ⟨2, none⟩⟩] :=
  ((C7_gc_exactness "ns"
      [[DocToken.ref "ns" ⟨⟨1, 1, [0]⟩⟩, DocToken.other "layout",
        DocToken.ref "ns" ⟨⟨1, 1, [2]⟩⟩]]
      [⟨FileName.conv ⟨⟨1, 1, [0]⟩⟩, true, ⟨0, none⟩⟩,
       ⟨FileName.conv ⟨⟨1, 1, [1]⟩⟩, true, ⟨1, none⟩⟩,
       ⟨FileName.conv ⟨⟨1, 1, [2]⟩⟩, true, ⟨2, none⟩⟩] (by decide)).1).trans (by decide)

/-- The reference returned by `register` does not depend on the order of the
consulted bucket's candidate list (given identical exact/entry maps). -/
theorem register_ref_congr (p : StoreParams) (st st' : Store) (dir : Dir) (b : Buffer)
    (d : DecodedPng) (hd : decodePng b = some d)
    (hex : st'.exactHashToKey = st.exactHashToKey)
    (hki : st'.keyToInfo = st.keyToInfo)
    (hperm : ((mapGet st.bucketToKeys
        ⟨d.width, d.height, computeFingerprint d⟩).getD []).Perm
      ((mapGet st'.bucketToKeys ⟨d.width, d.height, computeFingerprint d⟩).getD [])) :
    (register p st dir b).map (fun x => x.1) =
      (register p st' dir b).map (fun x => x.1) := by
  unfold register
  rw [hd]
  dsimp only
  rw [hex, hki]
  cases hearly : (match mapGet st.exactHashToKey (hashPngPixels d) with
      | some existingKey => mapGet st.keyToInfo existingKey
      | none => (none : Option SharedTextureInfo)) with
  | some info => rfl
  | none =>
    dsimp only
    have hscan_eq : scanCandidates p st' dir d (allowedBudget d.width d.height)
        ((mapGet st'.bucketToKeys ⟨d.width, d.height, computeFingerprint d⟩).getD [])
        none =
        scanCandidates p st dir d (allowedBudget d.width d.height)
          ((mapGet st.bucketToKeys ⟨d.width, d.height, computeFingerprint d⟩).getD [])
          none := by
      rw [← scanCandidates_congr p st st' dir d (allowedBudget d.width d.height) hki.symm]
      exact (scanCandidates_perm p st dir d (allowedBudget d.width d.height) hperm).symm
    rw [hscan_eq]
    cases hs : scanCandidates p st dir d (allowedBudget d.width d.height)
        ((mapGet st.bucketToKeys ⟨d.width, d.height, computeFingerprint d⟩).getD [])
        none with
    | none => rfl
    | some best =>
      dsimp only
      cases best with
      | none => rfl
      | some mk =>
        obtain ⟨m, k⟩ := mk
        dsimp only
        cases hbi : mapGet st.keyToInfo k with
        | some info => rfl
        | none => rfl

/-- C3: deterministic tie-break — (i) whenever two stores differ only in
the order of the consulted bucket's candidate list (a permutation),
`register` returns the same reference, so the selection is independent of
the order in which candidates entered the bucket; (ii) the candidate the
scan selects qualifies with the minimal mismatch count of the bucket and,
among candidates achieving that count, has the lexicographically smallest
key. -/
theorem C3_deterministic_tie_break (p : StoreParams) (st st' : Store) (dir : Dir)
    (b : Buffer) (d : DecodedPng) (r r' : RegisterResult)
    (hd : decodePng b = some d)
    (hex : st'.exactHashToKey = st.exactHashToKey)
    (hki : st'.keyToInfo = st.keyToInfo)
    (hperm : ((mapGet st.bucketToKeys
        ⟨d.width, d.height, computeFingerprint d⟩).getD []).Perm
      ((mapGet st'.bucketToKeys ⟨d.width, d.height, computeFingerprint d⟩).getD []))
    (h1 : (register p st dir b).map (fun x => x.1) = some r)
    (h2 : (register p st' dir b).map (fun x => x.1) = some r') :
    r = r' ∧
    ∀ m k, scanCandidates p st dir d (allowedBudget d.width d.height)
        ((mapGet st.bucketToKeys ⟨d.width, d.height, computeFingerprint d⟩).getD [])
        none = some (some (m, k)) →
      candidateOutcome p st dir d (allowedBudget d.width d.height) k = .qual m ∧
      ∀ k' ∈ (mapGet st.bucketToKeys ⟨d.width, d.height, computeFingerprint d⟩).getD [],
        ∀ n, candidateOutcome p st dir d (allowedBudget d.width d.height) k' = .qual n →
          m ≤ n ∧ (n = m → keyLtB k' k = false) := by
  constructor
  · have := register_ref_congr p st st' dir b d hd hex hki hperm
    rw [h1, h2] at this
    injection this
  · intro m k hscan
    obtain ⟨-, hout, hmin⟩ := scanCandidates_min p st dir d
      (allowedBudget d.width d.height) _ m k hscan
    exact ⟨hout, hmin⟩

set_option maxRecDepth 10000 in
set_option maxHeartbeats 4000000 in
/-- C3 witness: the two-candidate tie scenario, with the bucket list in the
two opposite orders; both select the entry with the smaller key. -/
theorem C3_deterministic_tie_break_witness :
    (⟨tieInfo2.texturePath, tieInfo2.filePath⟩ : RegisterResult) =
      ⟨tieInfo2.texturePath, tieInfo2.filePath⟩ ∧
    ∀ m k, scanCandidates exampleParams tieStore tieDir ⟨1, 1, [7, 8, 8, 255]⟩
        (allowedBudget 1 1)
        ((mapGet tieStore.bucketToKeys
          ⟨1, 1, computeFingerprint ⟨1, 1, [7, 8, 8, 255]⟩⟩).getD [])
        none = some (some (m, k)) →
      candidateOutcome exampleParams tieStore tieDir ⟨1, 1, [7, 8, 8, 255]⟩
        (allowedBudget 1 1) k = .qual m ∧
      ∀ k' ∈ (mapGet tieStore.bucketToKeys
          ⟨1, 1, computeFingerprint ⟨1, 1, [7, 8, 8, 255]⟩⟩).getD [],
        ∀ n, candidateOutcome exampleParams tieStore tieDir ⟨1, 1, [7, 8, 8, 255]⟩
          (allowedBudget 1 1) k' = .qual n →
          m ≤ n ∧ (n = m → keyLtB k' k = false) :=
  C3_deterministic_tie_break exampleParams tieStore tieStoreRev tieDir tieProbe
    ⟨1, 1, [7, 8, 8, 255]⟩ ⟨tieInfo2.texturePath, tieInfo2.filePath⟩
    ⟨tieInfo2.texturePath, tieInfo2.filePath⟩ rfl rfl rfl (by decide) (by decide)
    (by decide)

/-- C1 (amended): in a store holding exactly one persisted bitmap (the base,
registered into a fresh store) consider an equally-dimensioned copy with
exactly `k` pixels altered beyond the per-channel tolerance on premultiplied
channels (alphas above the ignore threshold at altered pixels) and matching
within tolerance elsewhere (`trueMismatchCount = k`).  If `k` is at most the
allowed budget AND the copy's coarse fingerprint equals the base's (so the
copy lands in the base's candidate bucket), `register` returns the base's
reference and persists nothing; if `k` is the budget plus one, `register`
creates and persists a new entry regardless of the fingerprint.  (The
fingerprint proviso is necessary: see the counterexample.) -/
theorem C1_near_duplicate_boundary (p : StoreParams) (bBase bCopy : Buffer)
    (dBase dCopy : DecodedPng) (k : Nat) (r1 : RegisterResult) (st1 : Store)
    (dir1 : Dir)
    (hdb : decodePng bBase = some dBase) (hdc : decodePng bCopy = some dCopy)
    (hw : dCopy.width = dBase.width) (hh : dCopy.height = dBase.height)
    (hlb : dBase.data.length = dBase.width * dBase.height * 4)
    (hlc : dCopy.data.length = dCopy.width * dCopy.height * 4)
    (hk : trueMismatchCount dCopy.data dBase.data = k)
    (h1 : register p emptyStore [] bBase = some (r1, st1, dir1)) :
    (k ≤ allowedBudget dCopy.width dCopy.height →
      computeFingerprint dCopy = computeFingerprint dBase →
      ∃ st2, register p st1 dir1 bCopy = some (r1, st2, dir1) ∧
        st2.keyToInfo = st1.keyToInfo) ∧
    (k = allowedBudget dCopy.width dCopy.height + 1 →
      ∃ st2, register p st1 dir1 bCopy =
          some (⟨texturePathForKey p (freshKey dCopy),
              ⟨p.sharedDir, FileName.conv (freshKey dCopy)⟩⟩, st2,
            dir1 ++ [⟨FileName.conv (freshKey dCopy), true, bCopy⟩]) ∧
        (⟨texturePathForKey p (freshKey dCopy),
          ⟨p.sharedDir, FileName.conv (freshKey dCopy)⟩⟩ : RegisterResult) ≠ r1 ∧
        (mapGet st2.keyToInfo (freshKey dCopy)).isSome) := by
  have hfresh := register_empty_eq p bBase dBase hdb
  rw [hfresh] at h1
  injection h1 with h1
  have hr1 : r1 = (freshResult p dBase bBase).1 := by rw [h1]
  have hst1 : st1 = (freshResult p dBase bBase).2.1 := by rw [h1]
  have hdir1 : dir1 = (freshResult p dBase bBase).2.2 := by rw [h1]
  subst hr1
  subst hst1
  subst hdir1
  have hlen : dCopy.data.length = dBase.data.length := by rw [hlc, hlb, hw, hh]
  have hi : mapGet (freshResult p dBase bBase).2.1.keyToInfo (freshKey dBase) =
      some ⟨freshKey dBase, dBase.width, dBase.height, computeFingerprint dBase,
        ⟨p.sharedDir, FileName.conv (freshKey dBase)⟩,
        texturePathForKey p (freshKey dBase)⟩ := by
    simp [freshResult]
  constructor
  · -- within budget: collapse (or exact hit when the bytes coincide)
    intro hkle hfp
    by_cases hdata : dCopy.data = dBase.data
    · have hhash_eq : hashPngPixels dCopy = hashPngPixels dBase :=
        (hashPngPixels_eq_iff _ _).mpr ⟨hw, hh, hdata⟩
      refine ⟨(freshResult p dBase bBase).2.1, ?_, rfl⟩
      have he : mapGet (freshResult p dBase bBase).2.1.exactHashToKey
          (hashPngPixels dCopy) = some (freshKey dBase) := by
        rw [hhash_eq]
        simp [freshResult]
      exact register_exact_hit p _ _ bCopy dCopy (freshKey dBase) _ hdc he hi
    · have hhash : hashPngPixels dCopy ≠ hashPngPixels dBase := by
        rw [Ne, hashPngPixels_eq_iff]
        rintro ⟨-, -, hd'⟩
        exact hdata hd'
      have hne : hashPngPixels dBase ≠ hashPngPixels dCopy := Ne.symm hhash
      have hmiss : (match mapGet (freshResult p dBase bBase).2.1.exactHashToKey
            (hashPngPixels dCopy) with
          | some existingKey =>
            mapGet (freshResult p dBase bBase).2.1.keyToInfo existingKey
          | none => none) = (none : Option SharedTextureInfo) := by
        have hnone : mapGet (freshResult p dBase bBase).2.1.exactHashToKey
            (hashPngPixels dCopy) = none := by
          simp [freshResult, hne]
        rw [hnone]
      have hbk : (⟨dCopy.width, dCopy.height, computeFingerprint dCopy⟩ : BucketKey) =
          ⟨dBase.width, dBase.height, computeFingerprint dBase⟩ := by
        rw [hw, hh, hfp]
      have hcands : (mapGet (freshResult p dBase bBase).2.1.bucketToKeys
          ⟨dCopy.width, dCopy.height, computeFingerprint dCopy⟩).getD [] =
          [freshKey dBase] := by
        rw [hbk]
        simp [freshResult]
      have hread : readFile p (freshResult p dBase bBase).2.2
          ⟨p.sharedDir, FileName.conv (freshKey dBase)⟩ = some bBase := by
        simp [freshResult, readFile]
      have hcount : countMismatchedPixels dCopy.data dBase.data
          (allowedBudget dCopy.width dCopy.height) = k := by
        rw [countMismatchedPixels_eq dCopy.data dBase.data _ hlen, hk]
        omega
      have hscan : scanCandidates p (freshResult p dBase bBase).2.1
          (freshResult p dBase bBase).2.2 dCopy
          (allowedBudget dCopy.width dCopy.height) [freshKey dBase] none =
          some (some (k, freshKey dBase)) := by
        rw [scan_single p _ _ dCopy _ (freshKey dBase) _ bBase dBase hi hw.symm hh.symm
          hread hdb hw.symm hh.symm]
        rw [hcount, if_pos hkle]
      refine ⟨Store.mk
        (mapSet (freshResult p dBase bBase).2.1.exactHashToKey
          (hashPngPixels dCopy) (freshKey dBase))
        (freshResult p dBase bBase).2.1.bucketToKeys
        (freshResult p dBase bBase).2.1.keyToInfo, ?_, rfl⟩
      rw [register_exact_miss p _ _ bCopy dCopy hdc hmiss, hcands, hscan]
      dsimp only
      rw [hi]
      rfl
  · -- one over budget: a new entry is created and persisted
    intro hkeq
    have hge1 : 1 ≤ trueMismatchCount dCopy.data dBase.data := by
      rw [hk]
      omega
    have hdata : dCopy.data ≠ dBase.data := data_ne_of_mismatch _ _ hge1
    have hhash : hashPngPixels dCopy ≠ hashPngPixels dBase := by
      rw [Ne, hashPngPixels_eq_iff]
      rintro ⟨-, -, hd'⟩
      exact hdata hd'
    have hne : hashPngPixels dBase ≠ hashPngPixels dCopy := Ne.symm hhash
    have hkne : freshKey dCopy ≠ freshKey dBase := by
      intro he
      apply hhash
      injection he
    have hnamene : FileName.conv (freshKey dBase) ≠ FileName.conv (freshKey dCopy) := by
      intro he
      apply hkne
      injection he with he
      exact he.symm
    have hmiss : (match mapGet (freshResult p dBase bBase).2.1.exactHashToKey
          (hashPngPixels dCopy) with
        | some existingKey =>
          mapGet (freshResult p dBase bBase).2.1.keyToInfo existingKey
        | none => none) = (none : Option SharedTextureInfo) := by
      have hnone : mapGet (freshResult p dBase bBase).2.1.exactHashToKey
          (hashPngPixels dCopy) = none := by
        simp [freshResult, hne]
      rw [hnone]
    have hbest : scanCandidates p (freshResult p dBase bBase).2.1
        (freshResult p dBase bBase).2.2 dCopy (allowedBudget dCopy.width dCopy.height)
        ((mapGet (freshResult p dBase bBase).2.1.bucketToKeys
          ⟨dCopy.width, dCopy.height, computeFingerprint dCopy⟩).getD []) none =
        some none := by
      by_cases hfp : computeFingerprint dCopy = computeFingerprint dBase
      · have hbk : (⟨dCopy.width, dCopy.height, computeFingerprint dCopy⟩ :
            BucketKey) = ⟨dBase.width, dBase.height, computeFingerprint dBase⟩ := by
          rw [hw, hh, hfp]
        have hcands : (mapGet (freshResult p dBase bBase).2.1.bucketToKeys
            ⟨dCopy.width, dCopy.height, computeFingerprint dCopy⟩).getD [] =
            [freshKey dBase] := by
          rw [hbk]
          simp [freshResult]
        have hread : readFile p (freshResult p dBase bBase).2.2
            ⟨p.sharedDir, FileName.conv (freshKey dBase)⟩ = some bBase := by
          simp [freshResult, readFile]
        have hcount : countMismatchedPixels dCopy.data dBase.data
            (allowedBudget dCopy.width dCopy.height) =
            allowedBudget dCopy.width dCopy.height + 1 := by
          rw [countMismatchedPixels_eq dCopy.data dBase.data _ hlen, hk, hkeq]
          omega
        rw [hcands]
        rw [scan_single p _ _ dCopy _ (freshKey dBase) _ bBase dBase hi hw.symm hh.symm
          hread hdb hw.symm hh.symm]
        rw [hcount, if_neg (by omega)]
      · have hbkne : (⟨dBase.width, dBase.height, computeFingerprint dBase⟩ :
            BucketKey) ≠ ⟨dCopy.width, dCopy.height, computeFingerprint dCopy⟩ := by
          intro he
          apply hfp
          injection he with h1' h2' h3'
          exact h3'.symm
        have hcands : (mapGet (freshResult p dBase bBase).2.1.bucketToKeys
            ⟨dCopy.width, dCopy.height, computeFingerprint dCopy⟩).getD [] = [] := by
          simp [freshResult, hbkne]
        rw [hcands]
        rfl
    have hexf : fileExists (freshResult p dBase bBase).2.2
        ⟨p.sharedDir, FileName.conv (freshKey dCopy)⟩ = false := by
      simp [freshResult, fileExists, hnamene]
    have hwrite : writeFile (freshResult p dBase bBase).2.2
        ⟨p.sharedDir, FileName.conv (freshKey dCopy)⟩ bCopy =
        (freshResult p dBase bBase).2.2 ++
          [⟨FileName.conv (freshKey dCopy), true, bCopy⟩] := by
      simp [freshResult, writeFile, hnamene]
    refine ⟨Store.mk
      (mapSet (freshResult p dBase bBase).2.1.exactHashToKey
        (hashPngPixels dCopy) (freshKey dCopy))
      (mapSet (freshResult p dBase bBase).2.1.bucketToKeys
        ⟨dCopy.width, dCopy.height, computeFingerprint dCopy⟩
        (jsSortKeys ((mapGet (freshResult p dBase bBase).2.1.bucketToKeys
          ⟨dCopy.width, dCopy.height, computeFingerprint dCopy⟩).getD [] ++
          [freshKey dCopy])))
      (mapSet (freshResult p dBase bBase).2.1.keyToInfo (freshKey dCopy)
        ⟨freshKey dCopy, dCopy.width, dCopy.height, computeFingerprint dCopy,
          ⟨p.sharedDir, FileName.conv (freshKey dCopy)⟩,
          texturePathForKey p (freshKey dCopy)⟩), ?_, ?_, ?_⟩
    · rw [register_exact_miss p _ _ bCopy dCopy hdc hmiss, hbest]
      dsimp only
      unfold registerNew
      dsimp only
      simp only [freshKey] at hexf hwrite ⊢
      rw [hexf]
      simp only [Bool.false_eq_true, if_false]
      rw [hwrite]
    · intro he
      apply hkne
      have := congrArg (fun x => x.texturePath.key) he
      exact this
    · rw [mapGet_mapSet_self]
      rfl

/-- C1 witness: 1×1 base, copy altered beyond tolerance in exactly
`budget + 1 = 1` pixel: a new entry is created and persisted. -/
theorem C1_near_duplicate_boundary_witness :
    ∃ st2, register exampleParams
        (freshResult exampleParams ⟨1, 1, [8, 8, 8, 255]⟩
          ⟨0, some ⟨1, 1, [8, 8, 8, 255]⟩⟩).2.1
        (freshResult exampleParams ⟨1, 1, [8, 8, 8, 255]⟩
          ⟨0, some ⟨1, 1, [8, 8, 8, 255]⟩⟩).2.2
        ⟨1, some ⟨1, 1, [0, 0, 0, 255]⟩⟩ =
      some (⟨texturePathForKey exampleParams (freshKey ⟨1, 1, [0, 0, 0, 255]⟩),
          ⟨exampleParams.sharedDir, FileName.conv (freshKey ⟨1, 1, [0, 0, 0, 255]⟩)⟩⟩,
        st2,
        (freshResult exampleParams ⟨1, 1, [8, 8, 8, 255]⟩
          ⟨0, some ⟨1, 1, [8, 8, 8, 255]⟩⟩).2.2 ++
          [⟨FileName.conv (freshKey ⟨1, 1, [0, 0, 0, 255]⟩), true,
            ⟨1, some ⟨1, 1, [0, 0, 0, 255]⟩⟩⟩]) ∧
      (⟨texturePathForKey exampleParams (freshKey ⟨1, 1, [0, 0, 0, 255]⟩),
        ⟨exampleParams.sharedDir,
          FileName.conv (freshKey ⟨1, 1, [0, 0, 0, 255]⟩)⟩⟩ : RegisterResult) ≠
        (freshResult exampleParams ⟨1, 1, [8, 8, 8, 255]⟩
          ⟨0, some ⟨1, 1, [8, 8, 8, 255]⟩⟩).1 ∧
      (mapGet st2.keyToInfo (freshKey ⟨1, 1, [0, 0, 0, 255]⟩)).isSome :=
  (C1_near_duplicate_boundary exampleParams ⟨0, some ⟨1, 1, [8, 8, 8, 255]⟩⟩
    ⟨1, some ⟨1, 1, [0, 0, 0, 255]⟩⟩ ⟨1, 1, [8, 8, 8, 255]⟩ ⟨1, 1, [0, 0, 0, 255]⟩ 1
    _ _ _ rfl rfl rfl rfl (by decide) (by decide) (by decide) rfl).2 (by decide)

set_option maxRecDepth 10000 in
set_option maxHeartbeats 4000000 in
/-- C1 counterexample to the claim as stated: base `(8,8,8,255)`, copy
`(11,8,8,255)`.  The copy differs from the base only within the per-channel
tolerance (`trueMismatchCount = 0 ≤ budget`), yet `register` does NOT return
the base's reference and persists a new file — the quantised fingerprint of
the altered pixel changes (`quant 8 = 0` vs `quant 11 = 1`), so the copy
misses the base's candidate bucket entirely.  The claim's conclusion
("register(copy) returns the existing bitmap's reference and persists no
new file") therefore fails without the same-fingerprint proviso. -/
theorem C1_near_duplicate_boundary_counterexample :
    trueMismatchCount [11, 8, 8, 255] [8, 8, 8, 255] = 0 ∧
    0 ≤ allowedBudget 1 1 ∧
    (⟨1, 1, [11, 8, 8, 255]⟩ : DecodedPng) ≠ ⟨1, 1, [8, 8, 8, 255]⟩ ∧
    ((register exampleParams
        (freshResult exampleParams ⟨1, 1, [8, 8, 8, 255]⟩
          ⟨0, some ⟨1, 1, [8, 8, 8, 255]⟩⟩).2.1
        (freshResult exampleParams ⟨1, 1, [8, 8, 8, 255]⟩
          ⟨0, some ⟨1, 1, [8, 8, 8, 255]⟩⟩).2.2
        ⟨1, some ⟨1, 1, [11, 8, 8, 255]⟩⟩).map fun x =>
      (decide (x.1 = (freshResult exampleParams ⟨1, 1, [8, 8, 8, 255]⟩
        ⟨0, some ⟨1, 1, [8, 8, 8, 255]⟩⟩).1), x.2.2.length)) = some (false, 2) := by
  decide
